import Mathlib

/-!
Shallow embedding of the ConSTRain genotyping core (Rust) in Lean 4,
together with theorems settling the specification claims.

Source files embedded:
 - `src/ConSTRain/src/utils.rs` (`range_overlap`, `zero_pad_if_shorter`, `N_PARTITIONS`)
 - `src/ConSTRain/src/utils/cigar_utils.rs` (CIGAR classification)
 - `src/ConSTRain/src/lib.rs` (`allele_length_from_cigar`, `extract_allele_lengths`)
 - `src/ConSTRain/src/repeat.rs` (`TandemRepeat`, `allele_freqs_as_ndarrays`,
   `set_cn_from_cnvs`)
 - `src/ConSTRain/src/io/bed.rs` (`read_trs`, `read_cnvs`)
 - `src/ConSTRain/src/genotyping.rs` (`partitions`, `most_likely_gt_idx`,
   `find_plateaus`, `estimate_genotype`)

Machine integers (`i64`, `usize`, `u32`) are embedded as `ℤ`/`ℕ` (no overflow is
reachable at the scales involved), `f32` read counts and distances are embedded as
exact rationals `ℚ`, and fallible Rust functions returning `anyhow::Result` are
embedded as `Except String`.
-/

namespace ConSTRain

/-! ## `utils.rs`: `range_overlap` -/

/-- Embedding of `utils::range_overlap`.  Start and end positions are inclusive;
the function bails if either range is inverted. -/
def rangeOverlap (aStart aEnd bStart bEnd : ℤ) : Except String ℤ :=
  if aStart > aEnd ∨ bStart > bEnd then
    .error "a or b range not correctly specified"
  else
    .ok (max 0 (min aEnd bEnd - max aStart bStart + 1))

/-! ## `utils/cigar_utils.rs`: CIGAR operation classification -/

/-- Embedding of `rust_htslib::bam::record::Cigar`: one alignment edit operation
with its length (`u32` in Rust, embedded as `ℕ`). -/
inductive Cigar where
  | Match (len : ℕ)
  | Ins (len : ℕ)
  | Del (len : ℕ)
  | RefSkip (len : ℕ)
  | SoftClip (len : ℕ)
  | HardClip (len : ℕ)
  | Pad (len : ℕ)
  | Equal (len : ℕ)
  | Diff (len : ℕ)
deriving DecidableEq, Repr

/-- Length of a CIGAR operation (`op.len()` in Rust). -/
def Cigar.opLen : Cigar → ℕ
  | .Match l | .Ins l | .Del l | .RefSkip l | .SoftClip l | .HardClip l | .Pad l
  | .Equal l | .Diff l => l

/-- Embedding of `cigar_utils::cigar_consumes_ref`: does the operation advance
the position in the reference sequence? -/
def cigarConsumesRef : Cigar → Bool
  | .Match _ | .Del _ | .RefSkip _ | .Equal _ | .Diff _ => true
  | _ => false

/-- Embedding of `cigar_utils::cigar_advances_tr_len`: does the operation advance
the tandem-repeat length (consumes query, excluding soft clips)? -/
def cigarAdvancesTrLen : Cigar → Bool
  | .Match _ | .Ins _ | .Equal _ | .Diff _ => true
  | _ => false

/-! ## `lib.rs`: `allele_length_from_cigar` -/

/-- One iteration of the `allele_length_from_cigar` loop body: update the
reference cursor and the accumulated repeat length according to the operation's
classification. -/
def cigarStep (trStart trEnd : ℤ) (op : Cigar) (pos acc : ℤ) :
    Except String (ℤ × ℤ) :=
  let len : ℤ := (op.opLen : ℤ)
  if cigarConsumesRef op ∧ ¬cigarAdvancesTrLen op then
    .ok (pos + len, acc)
  else if ¬cigarConsumesRef op ∧ cigarAdvancesTrLen op then
    .ok (pos, if pos ≥ trStart then acc + len else acc)
  else if cigarConsumesRef op ∧ cigarAdvancesTrLen op then
    match rangeOverlap pos (pos + len - 1) trStart (trEnd - 1) with
    | .ok w => .ok (pos + len, acc + w)
    | .error e => .error e
  else
    .ok (pos, acc)

/-- Loop of `allele_length_from_cigar`: walks the CIGAR operations keeping a
reference-position cursor `pos` and the accumulated repeat length `acc`, breaking
out of the loop as soon as `pos ≥ trEnd`. -/
def alleleLoop (trStart trEnd : ℤ) : List Cigar → ℤ → ℤ → Except String ℤ
  | [], _, acc => .ok acc
  | op :: rest, pos, acc =>
    match cigarStep trStart trEnd op pos acc with
    | .error e => .error e
    | .ok (pos', acc') =>
      if pos' ≥ trEnd then .ok acc' else alleleLoop trStart trEnd rest pos' acc'

/-- Embedding of `allele_length_from_cigar`: the number of reference/query bases a
read places inside the repeat locus `[trStart, trEnd)`, starting the cursor at the
read's aligned start position. -/
def alleleLengthFromCigar (cigar : List Cigar) (currentPos trStart trEnd : ℤ) :
    Except String ℤ :=
  alleleLoop trStart trEnd cigar currentPos 0

/-! ## `utils/vcf.rs` and `repeat.rs`: the data model -/

/-- Embedding of the `VcfFilter` enum (supported locus filter tags). -/
inductive VcfFilter where
  | Pass
  | Undef
  | DpZero
  | DpOor
  | CnZero
  | CnOor
  | CnMissing
  | AmbGt
deriving DecidableEq, Repr

/-- Embedding of `RepeatReferenceInfo`: how a tandem repeat is represented in the
reference genome (0-based, half-open coordinates).  The Rust field `end` is a Lean
keyword, so it is called `stop` here. -/
structure RepeatReferenceInfo where
  seqname : String
  start : ℤ
  stop : ℤ
  period : ℤ
  unit : String
deriving DecidableEq, Repr

/-- Embedding of `repeat.rs`'s `TandemRepeat`.  The Rust `HashMap<i64, f32>` of
allele lengths is embedded as an association list holding the map's entries in
its (arbitrary) iteration order; `f32` read counts are embedded as `ℚ`. -/
structure TandemRepeat where
  referenceInfo : RepeatReferenceInfo
  copyNumber : ℕ
  alleleLengths : Option (List (ℤ × ℚ))
  genotype : Option (List (ℤ × ℚ))
  filter : VcfFilter
deriving DecidableEq, Repr

/-- Embedding of `CopyNumberVariant` (fields as deserialized from a BED3+1 row;
`end` is again renamed to `stop`). -/
structure CopyNumberVariant where
  seqname : String
  start : ℤ
  stop : ℤ
  cn : ℕ
deriving DecidableEq, Repr

/-- Embedding of `RepeatReferenceInfo::get_reference_len`.  The Rust function
`assert!`s that `(end - start) % period == 0`; the panic on a violating locus is
embedded as `none`. -/
def getReferenceLen (r : RepeatReferenceInfo) : Option ℤ :=
  if (r.stop - r.start) % r.period = 0 then some ((r.stop - r.start) / r.period) else none

/-! ## `lib.rs`: `extract_allele_lengths`

Reads are modelled as already-decoded records (decode failures abort extraction
in the Rust code and are outside the per-read filter logic).  The histogram
`HashMap<i64, f32>` is embedded as an association list with distinct keys; the
`entry().and_modify(+1.0).or_insert(1.0)` update bumps the existing entry or
appends a fresh one. -/

/-- Embedding of the read fields used by the extractor: flag bits, the 0-based
aligned start position, and the CIGAR string. -/
structure ReadRecord where
  isDuplicate : Bool
  isSupplementary : Bool
  isQualityCheckFailed : Bool
  pos : ℤ
  cigar : List Cigar
deriving DecidableEq, Repr

/-- Embedding of `record.reference_end()`: one past the rightmost reference
position covered by the alignment, i.e. `pos` plus the total length of the
reference-consuming CIGAR operations. -/
def ReadRecord.referenceEnd (r : ReadRecord) : ℤ :=
  r.pos + ((r.cigar.filter (fun op => cigarConsumesRef op)).map
    (fun op => (op.opLen : ℤ))).sum

/-- Lookup in the histogram association list (0 for an absent key), mirroring
`HashMap` lookup. -/
def histLookup : List (ℤ × ℚ) → ℤ → ℚ
  | [], _ => 0
  | p :: t, k => if p.1 = k then p.2 else histLookup t k

/-- Embedding of `allele_lengths.entry(tr_len).and_modify(|c| *c += 1.0).or_insert(1.0)`:
bump the first entry with the given key, or append a fresh `(key, 1)` entry. -/
def bumpHist : List (ℤ × ℚ) → ℤ → List (ℤ × ℚ)
  | [], k => [(k, 1)]
  | p :: t, k => if p.1 = k then (p.1, p.2 + 1) :: t else p :: bumpHist t k

/-- The per-read decision of `extract_allele_lengths`, as one function: `none`
when the read is discarded (flagged duplicate/supplementary/QC-failed, not
enclosing the locus with flank, allele length not a multiple of the period, or a
`range_overlap` error), otherwise `some (acc / period)`, the histogram bucket the
read contributes to. -/
def contribValue (tr : TandemRepeat) (flank : ℕ) (r : ReadRecord) : Option ℤ :=
  if r.isDuplicate || r.isSupplementary || r.isQualityCheckFailed then none
  else if r.pos ≥ tr.referenceInfo.start - (flank : ℤ) ∨
      r.referenceEnd ≤ tr.referenceInfo.stop + (flank : ℤ) then none
  else
    match alleleLengthFromCigar r.cigar r.pos tr.referenceInfo.start
        tr.referenceInfo.stop with
    | .ok acc =>
      if acc % tr.referenceInfo.period = 0 then
        some (acc / tr.referenceInfo.period)
      else none
    | .error _ => none

/-- The read loop of `extract_allele_lengths`, folding the reads into the local
histogram. -/
def extractLoop (tr : TandemRepeat) (flank : ℕ) :
    List ReadRecord → List (ℤ × ℚ) → Except String (List (ℤ × ℚ))
  | [], h => .ok h
  | r :: rest, h =>
    if r.isDuplicate || r.isSupplementary || r.isQualityCheckFailed then
      extractLoop tr flank rest h
    else if r.pos ≥ tr.referenceInfo.start - (flank : ℤ) ∨
        r.referenceEnd ≤ tr.referenceInfo.stop + (flank : ℤ) then
      extractLoop tr flank rest h
    else
      match alleleLengthFromCigar r.cigar r.pos tr.referenceInfo.start
          tr.referenceInfo.stop with
      | .error e => .error e
      | .ok acc =>
        if acc % tr.referenceInfo.period = 0 then
          extractLoop tr flank rest (bumpHist h (acc / tr.referenceInfo.period))
        else
          extractLoop tr flank rest h

/-- Embedding of `extract_allele_lengths`: run the read loop starting from an
empty histogram and store the result on the locus only if it is nonempty. -/
def extractAlleleLengths (tr : TandemRepeat) (reads : List ReadRecord)
    (flank : ℕ) : Except String TandemRepeat :=
  match extractLoop tr flank reads [] with
  | .error e => .error e
  | .ok h => .ok (if h.isEmpty then tr else { tr with alleleLengths := some h })


/-- Coordinate-sorted, non-overlapping adjacency relation on CNV regions:
the previous region ends at or before the next one starts. -/
def cnvAdj (a b : CopyNumberVariant) : Prop := a.stop ≤ b.start

instance : DecidableRel cnvAdj := fun a b => inferInstanceAs (Decidable (a.stop ≤ b.start))

/-- Sort key used by `allele_freqs_as_ndarrays(Some("freq"))`:
`|a, b| b.1.partial_cmp(&a.1)`, i.e. descending by read count.  Note that the
comparator looks only at counts: entries with equal counts are not ordered
further. -/
def freqRel (a b : ℤ × ℚ) : Prop := b.2 ≤ a.2

instance : DecidableRel freqRel := fun a b => inferInstanceAs (Decidable (b.2 ≤ a.2))

/-- Sort key used by `allele_freqs_as_ndarrays(Some("len"))` and by the final
genotype sort in `estimate_genotype`: `|a, b| a.0.cmp(&b.0)`, ascending by allele
length. -/
def lenRel (a b : ℤ × ℚ) : Prop := a.1 ≤ b.1

instance : DecidableRel lenRel := fun a b => inferInstanceAs (Decidable (a.1 ≤ b.1))

instance : IsTotal (ℤ × ℚ) freqRel := ⟨fun a b => le_total b.2 a.2⟩

instance : IsTrans (ℤ × ℚ) freqRel := ⟨fun _ _ _ h1 h2 => le_trans h2 h1⟩

instance : IsTotal (ℤ × ℚ) lenRel := ⟨fun a b => le_total a.1 b.1⟩

instance : IsTrans (ℤ × ℚ) lenRel := ⟨fun _ _ _ h1 h2 => le_trans h1 h2⟩

/-- Embedding of `count_vec.sort_unstable_by(|a, b| b.1.partial_cmp(&a.1).unwrap())`.
`sort_unstable_by` guarantees only that the output is a permutation of the input
that is sorted with respect to the comparator; `List.insertionSort` with the same
comparator produces one such permutation, so it is a legal determinization of the
Rust sort. -/
def sortByFreq (l : List (ℤ × ℚ)) : List (ℤ × ℚ) := List.insertionSort freqRel l

/-- Embedding of `count_vec.sort_unstable_by(|a, b| a.0.cmp(&b.0))` (sort by
allele length); determinized in the same way as `sortByFreq`. -/
def sortByLen (l : List (ℤ × ℚ)) : List (ℤ × ℚ) := List.insertionSort lenRel l

/-- Embedding of `TandemRepeat::allele_freqs_as_tuples` (the histogram's entries
in iteration order; `None` yields an empty vector). -/
def alleleFreqsAsTuples (tr : TandemRepeat) : List (ℤ × ℚ) :=
  tr.alleleLengths.getD []

/-- Embedding of `TandemRepeat::allele_freqs_as_ndarrays`: optionally sorts the
histogram entries, then unzips them into the allele-length and count vectors. -/
def alleleFreqsAsNdarrays (tr : TandemRepeat) (sortBy : Option String) :
    List ℤ × List ℚ :=
  let countVec := alleleFreqsAsTuples tr
  let sorted :=
    match sortBy with
    | some by_ => if by_ = "freq" then sortByFreq countVec
                  else if by_ = "len" then sortByLen countVec
                  else countVec
    | none => countVec
  (sorted.map (·.1), sorted.map (·.2))

/-- Embedding of `TandemRepeat::set_cn_from_cnvs` from `repeat.rs`: scan the
coordinate-sorted CNV list; stop early once a region starts beyond the locus end;
on a fully covering region set the copy number; on a partial overlap set the
`CnMissing` filter; a `range_overlap` error is logged and skipped (`continue`). -/
def setCnFromCnvs (tr : TandemRepeat) : List CopyNumberVariant → TandemRepeat
  | [] => tr
  | cnv :: rest =>
    if cnv.start > tr.referenceInfo.stop then tr
    else
      match rangeOverlap tr.referenceInfo.start (tr.referenceInfo.stop - 1)
          cnv.start (cnv.stop - 1) with
      | .error _ => setCnFromCnvs tr rest
      | .ok overlap =>
        if overlap = tr.referenceInfo.stop - tr.referenceInfo.start then
          { tr with copyNumber := cnv.cn }
        else if overlap > 0 then
          { tr with filter := .CnMissing }
        else
          setCnFromCnvs tr rest

/-- Closed-interval overlap length between a locus and a CNV region (the value
`range_overlap` returns for them when both are well formed). -/
def overlapLen (tr : TandemRepeat) (cnv : CopyNumberVariant) : ℤ :=
  max 0 (min (tr.referenceInfo.stop - 1) (cnv.stop - 1) -
    max tr.referenceInfo.start cnv.start + 1)

/-! ## `io/bed.rs`: the BED loaders

The CSV deserialization itself is out of scope; the loaders are embedded as
functions of the already-deserialized record lists.  The Rust
`HashMap<String, Vec<CopyNumberVariant>>` is embedded as a total function from
contig names to lists, where an absent key is the empty list (the code only ever
inserts nonempty vectors, so emptiness coincides with absence). -/

/-- Loop of `read_cnvs`: push each record onto its contig's vector, erroring if
the vector's current last element ends beyond the new record's start. -/
def readCnvsLoop :
    List CopyNumberVariant → (String → List CopyNumberVariant) →
    Except String (String → List CopyNumberVariant)
  | [], m => .ok m
  | cnv :: rest, m =>
    match m cnv.seqname with
    | [] => readCnvsLoop rest (fun s => if s = cnv.seqname then [cnv] else m s)
    | v :: vs =>
      let prev := (v :: vs).getLast (List.cons_ne_nil v vs)
      if prev.stop > cnv.start ∧ prev.seqname = cnv.seqname then
        .error "CNV file is not coordinate sorted"
      else
        readCnvsLoop rest
          (fun s => if s = cnv.seqname then m s ++ [cnv] else m s)

/-- Embedding of `read_cnvs` (modulo file I/O): build the per-contig CNV map from
the deserialized records, rejecting unsorted/overlapping input. -/
def readCnvs (recs : List CopyNumberVariant) :
    Except String (String → List CopyNumberVariant) :=
  readCnvsLoop recs (fun _ => [])

/-- Embedding of `read_trs` (modulo file I/O): for every deserialized BED record,
look up the contig's copy number in the ploidy JSON (absent contigs default to 0)
and push a fresh `TandemRepeat` onto the buffer.  No validation beyond
deserialization is performed. -/
def readTrs (recs : List RepeatReferenceInfo) (ploidy : String → Option ℕ) :
    Except String (List TandemRepeat) :=
  .ok (recs.map fun r =>
    { referenceInfo := r
      copyNumber := (ploidy r.seqname).getD 0
      alleleLengths := none
      genotype := none
      filter := .Pass })

/-! ## `genotyping.rs`: the genotype estimator

`f32` arithmetic (counts, expected depths, Manhattan distances) is embedded as
exact rational arithmetic; `f32::EPSILON` becomes the rational `2⁻²³`. -/

/-- Embedding of `utils::zero_pad_if_shorter`. -/
def zeroPadIfShorter (a : List ℚ) (minLen : ℕ) : List ℚ :=
  if a.length < minLen then a ++ List.replicate (minLen - a.length) 0 else a

/-- The tolerance `f32::EPSILON = 2⁻²³` used when collecting the indices that
attain the minimal Manhattan distance. -/
def f32Epsilon : ℚ := 1 / 2 ^ 23

/-- Embedding of `TandemRepeat::get_n_mapped_reads`: the `f32` sum of the
histogram counts cast to `usize` (`as usize` truncates; on the nonnegative
counts arising in practice this is the floor). -/
def getNMappedReads (tr : TandemRepeat) : Option ℕ :=
  tr.alleleLengths.map (fun h => (⌊(h.map (fun p => p.2)).sum⌋).toNat)

/-- Embedding of `TandemRepeat::get_norm_depth`. -/
def getNormDepth (tr : TandemRepeat) : Option ℚ :=
  (getNMappedReads tr).map (fun dp => (dp : ℚ) / (tr.copyNumber : ℚ))

/-- Embedding of `most_likely_gt_idx`: Manhattan distances of each candidate row
(scaled by the expected reads per allele) to the observed distribution, then the
indices within `f32::EPSILON` of the minimum.  Exactly one such index is `ok`;
none (empty matrix, merged here with the Rust `unwrap` panic on an empty
iterator) or several are errors. -/
def mostLikelyGtIdx (possibleGts : List (List ℚ)) (nMappedReads : ℕ)
    (copyNumber : ℕ) (obsDistr : List ℚ) : Except String ℕ :=
  let e : ℚ := (nMappedReads : ℚ) / (copyNumber : ℚ)
  let errorSums := possibleGts.map
    (fun row => ((row.zip (obsDistr.take copyNumber)).map
      (fun p => |p.1 * e - p.2|)).sum)
  match errorSums.min? with
  | none => .error "no most likely allele distribution was found"
  | some m =>
    match (errorSums.enum.filter (fun p => |p.2 - m| < f32Epsilon)).map (·.1) with
    | [] => .error "no most likely allele distribution was found"
    | [i] => .ok i
    | _ => .error "multiple allele distributions are equally likely"

/-- The list of Manhattan distances computed inside `most_likely_gt_idx`
(a proof device naming the `error_sums` intermediate value of the Rust code). -/
def errSums (possibleGts : List (List ℚ)) (nMappedReads copyNumber : ℕ)
    (obsDistr : List ℚ) : List ℚ :=
  possibleGts.map (fun row => ((row.zip (obsDistr.take copyNumber)).map
    (fun p => |p.1 * ((nMappedReads : ℚ) / (copyNumber : ℚ)) - p.2|)).sum)

/-- Loop of `find_plateaus`: scan adjacent pairs, extending or closing the
current plateau. -/
def plateauLoop :
    ℕ → List ℚ → Option (ℕ × ℕ) → List (ℕ × ℕ) → List (ℕ × ℕ) × Option (ℕ × ℕ)
  | _, [], cur, acc => (acc, cur)
  | _, [_], cur, acc => (acc, cur)
  | i, a :: b :: rest, cur, acc =>
    if a = b then
      match cur with
      | some p => plateauLoop (i + 1) (b :: rest) (some (p.1, p.2 + 1)) acc
      | none => plateauLoop (i + 1) (b :: rest) (some (i, i + 2)) acc
    else
      match cur with
      | some p => plateauLoop (i + 1) (b :: rest) none (acc ++ [p])
      | none => plateauLoop (i + 1) (b :: rest) none acc

/-- Embedding of `find_plateaus`: maximal runs of equal adjacent values as
half-open index ranges; the Rust open-ended final slice `Slice(start, None)` is
written with explicit end `arr.length`.  The Rust `None` result for no plateaus
is the empty list here. -/
def findPlateaus (arr : List ℚ) : List (ℕ × ℕ) :=
  match plateauLoop 0 arr none [] with
  | (acc, some p) => acc ++ [(p.1, arr.length)]
  | (acc, none) => acc

/-- The plateau test applied to the chosen row: all entries of the sliced
subrange equal its first entry (an empty slice cannot arise for real plateaus). -/
def sliceAllEqHead (row : List ℚ) (p : ℕ × ℕ) : Bool :=
  match (row.drop p.1).take (p.2 - p.1) with
  | [] => true
  | x :: xs => xs.all (· == x)

/-- The `carry` recorded when the histogram is longer than the copy number
(`obs_distr[copy_number]` before truncation). -/
def obsCarry (cn : ℕ) (obs0 : List ℚ) : Option ℚ :=
  if cn < obs0.length then some (obs0.getD cn 0) else none

/-- The observed distribution after the length adjustment of
`estimate_genotype`: zero-padded if shorter than the copy number, truncated if
longer. -/
def obsDistrOf (cn : ℕ) (obs0 : List ℚ) : List ℚ :=
  if obs0.length < cn then zeroPadIfShorter obs0 cn
  else if obs0.length = cn then obs0
  else obs0.take cn

/-- The optional maximum-depth check of `estimate_genotype` (`false` when no
`max_norm_depth` is configured). -/
def aboveMax (maxNormDepth : Option ℚ) (normDepth : ℚ) : Bool :=
  match maxNormDepth with
  | some m => decide (normDepth > m)
  | none => false

/-- The carry-ambiguity check of `estimate_genotype`: a carry was recorded, the
genotype uses all `copy_number` positions, and the last kept observation equals
the carry. -/
def carryAmb (carry : Option ℚ) (genotypeLen cn : ℕ) (lastObs : ℚ) : Bool :=
  match carry with
  | some val => genotypeLen == cn && lastObs == val
  | none => false

/-- Embedding of `estimate_genotype`.  The Rust function mutates the locus and
returns a `Result`; here it returns the updated locus paired with `true` for
`Ok(())` and `false` for `Err(..)`.  The `get_norm_depth` `let-else` is fused
with the histogram match (it is `None` exactly when the histogram is absent),
and the `get_n_mapped_reads().context(..)?` re-read cannot fail on that path and
reuses the same value. -/
def estimateGenotype (tr : TandemRepeat) (minNormDepth : ℚ)
    (maxNormDepth : Option ℚ) (pmap : ℕ → Option (List (List ℚ))) :
    TandemRepeat × Bool :=
  if tr.copyNumber = 0 then ({ tr with filter := .CnZero }, false)
  else
    match tr.alleleLengths with
    | none => ({ tr with filter := .DpZero }, false)
    | some hist =>
      let nReads : ℕ := (⌊(hist.map (fun p => p.2)).sum⌋).toNat
      let normDepth : ℚ := (nReads : ℚ) / (tr.copyNumber : ℚ)
      if normDepth < minNormDepth then ({ tr with filter := .DpOor }, false)
      else if aboveMax maxNormDepth normDepth then ({ tr with filter := .DpOor }, false)
      else
        let sorted := sortByFreq hist
        let alleleLengths := sorted.map (·.1)
        let obs0 := sorted.map (·.2)
        let carry := obsCarry tr.copyNumber obs0
        let obsDistr := obsDistrOf tr.copyNumber obs0
        match pmap tr.copyNumber with
        | none => ({ tr with filter := .CnOor }, false)
        | some possibleGts =>
          match mostLikelyGtIdx possibleGts nReads tr.copyNumber obsDistr with
          | .error _ => ({ tr with filter := .AmbGt }, false)
          | .ok minIdx =>
            let mostLikelyGt := possibleGts.getD minIdx []
            if (findPlateaus obsDistr).all (fun p => sliceAllEqHead mostLikelyGt p) then
              let genotype0 := (alleleLengths.zip mostLikelyGt).filter (fun p => 0 < p.2)
              if carryAmb carry genotype0.length tr.copyNumber
                  (obsDistr.getD (tr.copyNumber - 1) 0) then
                ({ tr with filter := .AmbGt }, false)
              else
                ({ tr with genotype := some (sortByLen genotype0) }, true)
            else ({ tr with filter := .AmbGt }, false)


/-! ## `genotyping.rs`: `partitions` (and `utils.rs`: `N_PARTITIONS`)

The Rust `partitions(n)` preallocates an `N_PARTITIONS[n] × n` zero matrix and
runs Kelleher's iterative ascending-composition generator, writing each emitted
partition (reversed, i.e. descending, and right-padded with zeros) into the rows
from the bottom up, breaking after row 0 has been written.  The generator state
`a[0..=k]` is embedded as a stack (list with the largest part first), so the
inner `while` pushes at the head; the fuel of the outer loop is exactly
`N_PARTITIONS[n]`, which models the `checked_sub` break. -/

/-- Embedding of the hardcoded `utils::N_PARTITIONS` table (partition numbers of
0..50). -/
def nPartitionsTable : List ℕ :=
  [1, 1, 2, 3, 5, 7, 11, 15, 22, 30, 42, 56, 77, 101, 135, 176, 231, 297, 385,
   490, 627, 792, 1002, 1255, 1575, 1958, 2436, 3010, 3718, 4565, 5604, 6842,
   8349, 10143, 12310, 14883, 17977, 21637, 26015, 31185, 37338, 44583, 53174,
   63261, 75175, 89134, 105558, 124754, 147273, 173525, 204226]

/-- `N_PARTITIONS[n]`; the Rust panic on out-of-bounds `n > 50` is out of scope
(only `n ≤ 50` values are ever used). -/
def nPartitions (n : ℕ) : ℕ := nPartitionsTable.getD n 0

/-- The inner `while x <= y` loop of `partitions`: repeatedly push `x` while
decrementing `y`, then push `x + y`.  The fuel is always called with a value
larger than `y`, which makes it equivalent to the unbounded loop because each
iteration decreases `y` by `x ≥ 1`. -/
def innerLoop : ℕ → ℕ → ℕ → List ℕ → List ℕ
  | 0, x, y, acc => (x + y) :: acc
  | f + 1, x, y, acc => if x ≤ y then innerLoop f x (y - x) (x :: acc) else (x + y) :: acc

/-- One iteration of the outer `while k != 0` loop of `partitions`: pop the top
two stack entries `a[k]`, `a[k-1]` and run the inner loop with `x = a[k-1] + 1`
and `y = a[k] - 1`. -/
def stepOnce : List ℕ → List ℕ
  | y0 :: x0 :: rest => innerLoop y0 (x0 + 1) (y0 - 1) rest
  | s => s

/-- The outer loop of `partitions`: keep stepping and emitting while the stack
has at least two entries (`k != 0`) and fuel (the number of matrix rows still to
be written) remains. -/
def emitLoop : ℕ → List ℕ → List (List ℕ)
  | 0, _ => []
  | f + 1, s => if 2 ≤ s.length then stepOnce s :: emitLoop f (stepOnce s) else []

/-- Right-pad a partition with zeros to width `n` (the row layout of the Rust
matrix). -/
def padRow (n : ℕ) (e : List ℕ) : List ℕ := e ++ List.replicate (n - e.length) 0

/-- Embedding of `genotyping::partitions`: the `N_PARTITIONS[n] × n` matrix as a
list of rows.  Emission `j` is written to row `N_PARTITIONS[n] - 1 - j`, so the
row list is the reversed emission list, preceded by untouched zero rows in case
the loop emits fewer than `N_PARTITIONS[n]` partitions (the theorems below show
it never does for `1 ≤ n ≤ 50`). -/
def partitions (n : ℕ) : List (List ℕ) :=
  if n = 0 then [[]]
  else
    let es := emitLoop (nPartitions n) [n, 0]
    List.replicate (nPartitions n - es.length) (List.replicate n 0) ++
      es.reverse.map (padRow n)

/-! ### A reference enumeration of partitions

`AP f n m` enumerates the ascending lists of parts `≥ m` summing to `n`, in
lexicographic order; `cTab` is a precomputed table of their counts, verified
against the standard recurrence `c(n, m) = c(n - m, m) + c(n, m + 1)` by
`decide`.  These are proof devices used to show that the Kelleher loop emits
every partition exactly once. -/

/-- Precomputed counts `c(n, m)` of the partitions of `n` into parts `≥ m`, for
`1 ≤ m ≤ n ≤ 50` (row `n` lists `m = 1..n`). -/
def cTable : List (List ℕ) := [
  [1],
  [2, 1],
  [3, 1, 1],
  [5, 2, 1, 1],
  [7, 2, 1, 1, 1],
  [11, 4, 2, 1, 1, 1],
  [15, 4, 2, 1, 1, 1, 1],
  [22, 7, 3, 2, 1, 1, 1, 1],
  [30, 8, 4, 2, 1, 1, 1, 1, 1],
  [42, 12, 5, 3, 2, 1, 1, 1, 1, 1],
  [56, 14, 6, 3, 2, 1, 1, 1, 1, 1, 1],
  [77, 21, 9, 5, 3, 2, 1, 1, 1, 1, 1, 1],
  [101, 24, 10, 5, 3, 2, 1, 1, 1, 1, 1, 1, 1],
  [135, 34, 13, 7, 4, 3, 2, 1, 1, 1, 1, 1, 1, 1],
  [176, 41, 17, 8, 5, 3, 2, 1, 1, 1, 1, 1, 1, 1, 1],
  [231, 55, 21, 11, 6, 4, 3, 2, 1, 1, 1, 1, 1, 1, 1, 1],
  [297, 66, 25, 12, 7, 4, 3, 2, 1, 1, 1, 1, 1, 1, 1, 1, 1],
  [385, 88, 33, 16, 9, 6, 4, 3, 2, 1, 1, 1, 1, 1, 1, 1, 1, 1],
  [490, 105, 39, 18, 10, 6, 4, 3, 2, 1, 1, 1, 1, 1, 1, 1, 1, 1, 1],
  [627, 137, 49, 24, 13, 8, 5, 4, 3, 2, 1, 1, 1, 1, 1, 1, 1, 1, 1, 1],
  [792, 165, 60, 27, 15, 9, 6, 4, 3, 2, 1, 1, 1, 1, 1, 1, 1, 1, 1, 1, 1],
  [1002, 210, 73, 34, 18, 11, 7, 5, 4, 3, 2, 1, 1, 1, 1, 1, 1, 1, 1, 1, 1, 1],
  [1255, 253, 88, 39, 21, 12, 8, 5, 4, 3, 2, 1, 1, 1, 1, 1, 1, 1, 1, 1, 1, 1, 1],
  [1575, 320, 110, 50, 26, 16, 10, 7, 5, 4, 3, 2, 1, 1, 1, 1, 1, 1, 1, 1, 1, 1, 1, 1],
  [1958, 383, 130, 57, 30, 17, 11, 7, 5, 4, 3, 2, 1, 1, 1, 1, 1, 1, 1, 1, 1, 1, 1, 1, 1],
  [2436, 478, 158, 70, 36, 21, 13, 9, 6, 5, 4, 3, 2, 1, 1, 1, 1, 1, 1, 1, 1, 1, 1, 1, 1, 1],
  [3010, 574, 191, 81, 42, 24, 15, 10, 7, 5, 4, 3, 2, 1, 1, 1, 1, 1, 1, 1, 1, 1, 1, 1, 1, 1, 1],
  [3718, 708, 230, 100, 50, 29, 18, 12, 8, 6, 5, 4, 3, 2, 1, 1, 1, 1, 1, 1, 1, 1, 1, 1, 1, 1, 1, 1],
  [4565, 847, 273, 115, 58, 32, 20, 13, 9, 6, 5, 4, 3, 2, 1, 1, 1, 1, 1, 1, 1, 1, 1, 1, 1, 1, 1, 1, 1],
  [5604, 1039, 331, 140, 70, 40, 24, 16, 11, 8, 6, 5, 4, 3, 2, 1, 1, 1, 1, 1, 1, 1, 1, 1, 1, 1, 1, 1, 1, 1],
  [6842, 1238, 391, 161, 80, 44, 27, 17, 12, 8, 6, 5, 4, 3, 2, 1, 1, 1, 1, 1, 1, 1, 1, 1, 1, 1, 1, 1, 1, 1, 1],
  [8349, 1507, 468, 195, 95, 53, 32, 21, 14, 10, 7, 6, 5, 4, 3, 2, 1, 1, 1, 1, 1, 1, 1, 1, 1, 1, 1, 1, 1, 1, 1, 1],
  [10143, 1794, 556, 225, 110, 60, 36, 23, 16, 11, 8, 6, 5, 4, 3, 2, 1, 1, 1, 1, 1, 1, 1, 1, 1, 1, 1, 1, 1, 1, 1, 1, 1],
  [12310, 2167, 660, 269, 129, 71, 42, 27, 18, 13, 9, 7, 6, 5, 4, 3, 2, 1, 1, 1, 1, 1, 1, 1, 1, 1, 1, 1, 1, 1, 1, 1, 1, 1],
  [14883, 2573, 779, 311, 150, 80, 48, 30, 20, 14, 10, 7, 6, 5, 4, 3, 2, 1, 1, 1, 1, 1, 1, 1, 1, 1, 1, 1, 1, 1, 1, 1, 1, 1, 1],
  [17977, 3094, 927, 371, 176, 96, 56, 36, 24, 17, 12, 9, 7, 6, 5, 4, 3, 2, 1, 1, 1, 1, 1, 1, 1, 1, 1, 1, 1, 1, 1, 1, 1, 1, 1, 1],
  [21637, 3660, 1087, 427, 202, 107, 63, 39, 26, 18, 13, 9, 7, 6, 5, 4, 3, 2, 1, 1, 1, 1, 1, 1, 1, 1, 1, 1, 1, 1, 1, 1, 1, 1, 1, 1, 1],
  [26015, 4378, 1284, 505, 236, 126, 73, 46, 30, 21, 15, 11, 8, 7, 6, 5, 4, 3, 2, 1, 1, 1, 1, 1, 1, 1, 1, 1, 1, 1, 1, 1, 1, 1, 1, 1, 1, 1],
  [31185, 5170, 1510, 583, 272, 143, 83, 51, 34, 23, 17, 12, 9, 7, 6, 5, 4, 3, 2, 1, 1, 1, 1, 1, 1, 1, 1, 1, 1, 1, 1, 1, 1, 1, 1, 1, 1, 1, 1],
  [37338, 6153, 1775, 688, 317, 167, 96, 60, 39, 27, 19, 14, 10, 8, 7, 6, 5, 4, 3, 2, 1, 1, 1, 1, 1, 1, 1, 1, 1, 1, 1, 1, 1, 1, 1, 1, 1, 1, 1, 1],
  [44583, 7245, 2075, 791, 364, 188, 108, 66, 43, 29, 21, 15, 11, 8, 7, 6, 5, 4, 3, 2, 1, 1, 1, 1, 1, 1, 1, 1, 1, 1, 1, 1, 1, 1, 1, 1, 1, 1, 1, 1, 1],
  [53174, 8591, 2438, 928, 423, 221, 125, 77, 50, 34, 24, 18, 13, 10, 8, 7, 6, 5, 4, 3, 2, 1, 1, 1, 1, 1, 1, 1, 1, 1, 1, 1, 1, 1, 1, 1, 1, 1, 1, 1, 1, 1],
  [63261, 10087, 2842, 1067, 484, 248, 141, 85, 55, 37, 26, 19, 14, 10, 8, 7, 6, 5, 4, 3, 2, 1, 1, 1, 1, 1, 1, 1, 1, 1, 1, 1, 1, 1, 1, 1, 1, 1, 1, 1, 1, 1, 1],
  [75175, 11914, 3323, 1248, 560, 288, 162, 99, 63, 43, 30, 22, 16, 12, 9, 8, 7, 6, 5, 4, 3, 2, 1, 1, 1, 1, 1, 1, 1, 1, 1, 1, 1, 1, 1, 1, 1, 1, 1, 1, 1, 1, 1, 1],
  [89134, 13959, 3872, 1434, 643, 326, 183, 110, 71, 47, 33, 24, 18, 13, 10, 8, 7, 6, 5, 4, 3, 2, 1, 1, 1, 1, 1, 1, 1, 1, 1, 1, 1, 1, 1, 1, 1, 1, 1, 1, 1, 1, 1, 1, 1],
  [105558, 16424, 4510, 1668, 740, 376, 209, 126, 80, 54, 37, 27, 20, 15, 11, 9, 8, 7, 6, 5, 4, 3, 2, 1, 1, 1, 1, 1, 1, 1, 1, 1, 1, 1, 1, 1, 1, 1, 1, 1, 1, 1, 1, 1, 1, 1],
  [124754, 19196, 5237, 1914, 847, 424, 236, 140, 89, 59, 41, 29, 22, 16, 12, 9, 8, 7, 6, 5, 4, 3, 2, 1, 1, 1, 1, 1, 1, 1, 1, 1, 1, 1, 1, 1, 1, 1, 1, 1, 1, 1, 1, 1, 1, 1, 1],
  [147273, 22519, 6095, 2223, 975, 491, 270, 162, 102, 68, 47, 34, 25, 19, 14, 11, 9, 8, 7, 6, 5, 4, 3, 2, 1, 1, 1, 1, 1, 1, 1, 1, 1, 1, 1, 1, 1, 1, 1, 1, 1, 1, 1, 1, 1, 1, 1, 1],
  [173525, 26252, 7056, 2546, 1112, 552, 304, 179, 113, 74, 51, 36, 27, 20, 15, 11, 9, 8, 7, 6, 5, 4, 3, 2, 1, 1, 1, 1, 1, 1, 1, 1, 1, 1, 1, 1, 1, 1, 1, 1, 1, 1, 1, 1, 1, 1, 1, 1, 1],
  [204226, 30701, 8182, 2945, 1277, 634, 346, 205, 128, 85, 58, 41, 30, 23, 17, 13, 10, 9, 8, 7, 6, 5, 4, 3, 2, 1, 1, 1, 1, 1, 1, 1, 1, 1, 1, 1, 1, 1, 1, 1, 1, 1, 1, 1, 1, 1, 1, 1, 1, 1]
]

/-- `c(n, m)`: the number of partitions of `n` into parts `≥ m` (1 when `n = 0`,
0 when `0 < n < m`, table lookup otherwise). -/
def cTab (n m : ℕ) : ℕ :=
  if n = 0 then 1 else if n < m then 0 else (cTable.getD (n - 1) []).getD (m - 1) 0

/-- Enumeration of the ascending partitions of `n` with parts `≥ m`, smallest
part first, in lexicographic order (`f` is structural fuel; `2 * n + 1 - m`
strictly decreases along the recursion, so any `f` with `2 * n + 1 ≤ f + m` is
enough). -/
def AP : ℕ → ℕ → ℕ → List (List ℕ)
  | 0, n, _ => if n = 0 then [[]] else []
  | f + 1, n, m =>
    if n = 0 then [[]]
    else if n < m then []
    else (AP f (n - m) m).map (fun v => m :: v) ++ AP f n (m + 1)

/-- The canonical state invariant of the Kelleher generator: a nonempty
nonincreasing stack of positive parts summing to `n`. -/
def GoodStack (n : ℕ) (s : List ℕ) : Prop :=
  s ≠ [] ∧ s.Chain' (· ≥ ·) ∧ (∀ a ∈ s, 1 ≤ a) ∧ s.sum = n

/-- Strict lexicographic order on stacks, read as ascending compositions (the
order in which the Kelleher loop emits partitions). -/
def ascLt (s t : List ℕ) : Prop := List.Lex (· < ·) s.reverse t.reverse

/-- The ambiguity condition of `estimate_genotype` once the candidate matrix has
been found: the minimum-distance search does not return a unique index, or the
chosen row breaks a plateau of the observed distribution, or the carry check
fires. -/
def ambGtCondition (cn nReads : ℕ) (hist : List (ℤ × ℚ))
    (possibleGts : List (List ℚ)) : Prop :=
  let sorted := sortByFreq hist
  let obs0 := sorted.map (·.2)
  let obsDistr := obsDistrOf cn obs0
  match mostLikelyGtIdx possibleGts nReads cn obsDistr with
  | .error _ => True
  | .ok minIdx =>
    let row := possibleGts.getD minIdx []
    ¬ (findPlateaus obsDistr).all (fun p => sliceAllEqHead row p) = true ∨
    carryAmb (obsCarry cn obs0)
      ((sorted.map (·.1)).zip row |>.filter (fun p => 0 < p.2)).length cn
      (obsDistr.getD (cn - 1) 0) = true


end ConSTRain

namespace ConSTRain

/-! ## Claim theorems (first batch) -/

/-- C10: for well-formed closed intervals, `range_overlap` returns
`max 0 (min aEnd bEnd - max aStart bStart + 1)`, the result is symmetric in the
two intervals, and inverted intervals produce an error. -/
theorem rangeOverlap_spec (a b c d : ℤ) :
    (a ≤ b → c ≤ d →
      rangeOverlap a b c d = .ok (max 0 (min b d - max a c + 1)) ∧
      rangeOverlap a b c d = rangeOverlap c d a b) ∧
    (a > b ∨ c > d → ∀ v, rangeOverlap a b c d ≠ .ok v) := by
  constructor
  · intro hab hcd
    have h : ¬(a > b ∨ c > d) := by omega
    have h' : ¬(c > d ∨ a > b) := by omega
    constructor
    · simp [rangeOverlap, h]
    · simp [rangeOverlap, h, h']
      omega
  · intro h v
    simp [rangeOverlap, h]

/-- Witness for C10 at a concrete input (the doctest from `utils.rs`):
intervals `[10,15]` and `[13,25]` overlap in `3` positions, symmetrically,
and the inverted interval `[15,10]` yields an error. -/
theorem rangeOverlap_spec_witness :
    rangeOverlap 10 15 13 25 = .ok 3 ∧
    rangeOverlap 10 15 13 25 = rangeOverlap 13 25 10 15 ∧
    ∀ v, rangeOverlap 15 10 13 25 ≠ .ok v := by
  refine ⟨?_, ?_, ?_⟩
  · have h := (rangeOverlap_spec 10 15 13 25).1 (by decide) (by decide)
    rw [h.1]; rfl
  · exact ((rangeOverlap_spec 10 15 13 25).1 (by decide) (by decide)).2
  · exact (rangeOverlap_spec 15 10 13 25).2 (by decide)

/-- Helper for C7: in a coordinate-sorted, non-overlapping region list headed by
`c`, every later region starts at or after `c.stop`. -/
theorem cnvAdj_head_le (c : CopyNumberVariant) (l : List CopyNumberVariant)
    (hch : (c :: l).Chain' cnvAdj) (hwf : ∀ x ∈ l, x.start < x.stop) :
    ∀ r ∈ l, c.stop ≤ r.start := by
  revert hch hwf
  induction l generalizing c with
  | nil => intro _ _ r hrm; cases hrm
  | cons b t ih =>
    intro hch hwf r hrm
    have hadj : cnvAdj c b := (List.chain'_cons.mp hch).1
    rcases List.mem_cons.mp hrm with h | h
    · subst h; exact hadj
    · have hb : b.start < b.stop := hwf b (List.mem_cons_self _ _)
      have ht := ih b (List.chain'_cons.mp hch).2
        (fun x hx => hwf x (List.mem_cons_of_mem _ hx)) r h

      calc c.stop ≤ b.start := hadj
        _ ≤ b.stop := le_of_lt hb
        _ ≤ r.start := ht

/-- C7: applying a coordinate-sorted, non-overlapping CNV list to a well-formed
locus acts on the first region with nonzero closed-interval overlap: a fully
covering region sets the copy number, a partial overlap sets the `CnMissing`
filter without touching the copy number, and if no region overlaps (including
when the scan stops early at a region starting past the locus end) the locus is
returned completely unchanged. -/
theorem setCnFromCnvs_spec (tr : TandemRepeat) (cnvs : List CopyNumberVariant)
    (hl : tr.referenceInfo.start < tr.referenceInfo.stop)
    (hr : ∀ c ∈ cnvs, c.start < c.stop)
    (hs : cnvs.Chain' cnvAdj) :
    (∀ c, cnvs.find? (fun c => 0 < overlapLen tr c) = some c →
      (overlapLen tr c = tr.referenceInfo.stop - tr.referenceInfo.start →
        setCnFromCnvs tr cnvs = { tr with copyNumber := c.cn }) ∧
      (overlapLen tr c ≠ tr.referenceInfo.stop - tr.referenceInfo.start →
        setCnFromCnvs tr cnvs = { tr with filter := .CnMissing })) ∧
    (cnvs.find? (fun c => 0 < overlapLen tr c) = none →
      setCnFromCnvs tr cnvs = tr) := by
  revert hr hs
  induction cnvs with
  | nil => exact fun _ _ => ⟨fun c hc => by simp at hc, fun _ => rfl⟩
  | cons cnv rest ih =>
    intro hr hs
    have hcnv : cnv.start < cnv.stop := hr cnv (List.mem_cons_self _ _)
    by_cases hbeyond : cnv.start > tr.referenceInfo.stop
    · -- early break: no region in the list can overlap
      have hzero : ∀ r ∈ cnv :: rest, ¬ 0 < overlapLen tr r := by
        intro r hrm
        have hge : tr.referenceInfo.stop < r.start := by
          rcases List.mem_cons.mp hrm with h | h
          · subst h; exact hbeyond
          · have := cnvAdj_head_le cnv rest hs
              (fun x hx => hr x (List.mem_cons_of_mem _ hx)) r h
            omega
        simp only [overlapLen]
        omega
      have hfind : (cnv :: rest).find? (fun c => 0 < overlapLen tr c) = none := by
        rw [List.find?_eq_none]
        intro x hx
        simpa using hzero x hx
      refine ⟨fun c hc => ?_, fun _ => ?_⟩
      · rw [hfind] at hc; cases hc
      · show setCnFromCnvs tr (cnv :: rest) = tr
        simp [setCnFromCnvs, hbeyond]
    · -- the region is examined; `range_overlap` succeeds and returns `overlapLen`
      have hargs : ¬(tr.referenceInfo.start > tr.referenceInfo.stop - 1 ∨
          cnv.start > cnv.stop - 1) := by omega
      have hov : rangeOverlap tr.referenceInfo.start (tr.referenceInfo.stop - 1)
          cnv.start (cnv.stop - 1) = .ok (overlapLen tr cnv) := by
        simp [rangeOverlap, hargs, overlapLen]
      have hlen : overlapLen tr cnv ≤ tr.referenceInfo.stop - tr.referenceInfo.start := by
        simp only [overlapLen]; omega
      by_cases hfull : overlapLen tr cnv = tr.referenceInfo.stop - tr.referenceInfo.start
      · have hpos : (0:ℤ) < overlapLen tr cnv := by omega
        have hfind : (cnv :: rest).find? (fun c => 0 < overlapLen tr c) = some cnv := by
          simp [List.find?_cons, hpos]
        refine ⟨fun c hc => ?_, fun hnone => ?_⟩
        · rw [hfind] at hc
          cases hc
          refine ⟨fun _ => ?_, fun hne => absurd hfull hne⟩
          simp [setCnFromCnvs, hbeyond, hov, hfull]
        · rw [hfind] at hnone; cases hnone
      · by_cases hpos : (0:ℤ) < overlapLen tr cnv
        · have hfind : (cnv :: rest).find? (fun c => 0 < overlapLen tr c) = some cnv := by
            simp [List.find?_cons, hpos]
          refine ⟨fun c hc => ?_, fun hnone => ?_⟩
          · rw [hfind] at hc
            cases hc
            refine ⟨fun heq => absurd heq hfull, fun _ => ?_⟩
            simp [setCnFromCnvs, hbeyond, hov, hfull, hpos]
          · rw [hfind] at hnone; cases hnone
        · -- zero overlap: skip this region and recurse
          have hstep : setCnFromCnvs tr (cnv :: rest) = setCnFromCnvs tr rest := by
            simp [setCnFromCnvs, hbeyond, hov, hfull, hpos]
          have hfind : (cnv :: rest).find? (fun c => 0 < overlapLen tr c) =
              rest.find? (fun c => 0 < overlapLen tr c) := by
            simp [List.find?_cons, hpos]
          have := ih (fun c hc => hr c (List.mem_cons_of_mem _ hc)) (List.chain'_cons'.mp hs).2
          rw [hstep, hfind]
          exact this

/-- Witness for C7 at concrete inputs: a fully covering region `[0, 30)` with
`cn = 3` over the locus `[10, 20)` sets the copy number to 3. -/
theorem setCnFromCnvs_spec_witness :
    setCnFromCnvs ⟨⟨"chr1", 10, 20, 2, "GT"⟩, 2, none, none, .Pass⟩
        [⟨"chr1", 0, 30, 3⟩] =
      ⟨⟨"chr1", 10, 20, 2, "GT"⟩, 3, none, none, .Pass⟩ := by
  have h := setCnFromCnvs_spec ⟨⟨"chr1", 10, 20, 2, "GT"⟩, 2, none, none, .Pass⟩
    [⟨"chr1", 0, 30, 3⟩] (by decide) (by simp) (List.chain'_singleton _)
  exact (h.1 ⟨"chr1", 0, 30, 3⟩ (by decide)).1 (by decide)

/-- Helper for C8: full behaviour of the `read_cnvs` loop, generalized over the
accumulated map.  Under the loop's invariants (each contig's vector holds only
records of that contig, and each vector is already coordinate sorted), the loop
succeeds exactly when every contig's accumulated-plus-incoming records are
coordinate sorted and non-overlapping, and on success each contig's vector is its
records in input order. -/
theorem readCnvsLoop_spec (recs : List CopyNumberVariant) :
    ∀ m : String → List CopyNumberVariant,
      (∀ c r, r ∈ m c → r.seqname = c) →
      (∀ c, (m c).Chain' cnvAdj) →
      (((∃ m', readCnvsLoop recs m = .ok m') ↔
        ∀ c, (m c ++ recs.filter (fun r => r.seqname = c)).Chain' cnvAdj) ∧
      (∀ m', readCnvsLoop recs m = .ok m' →
        ∀ c, m' c = m c ++ recs.filter (fun r => r.seqname = c))) := by
  induction recs with
  | nil =>
    intro m hnames hchain
    refine ⟨⟨fun _ c => by simpa using hchain c, fun _ => ⟨m, rfl⟩⟩, ?_⟩
    intro m' hm' c
    simp only [readCnvsLoop] at hm'
    cases hm'
    simp
  | cons cnv rest ih =>
    intro m hnames hchain
    have hfilt_eq : ∀ c, ¬c = cnv.seqname →
        (cnv :: rest).filter (fun r => r.seqname = c) =
          rest.filter (fun r => r.seqname = c) := by
      intro c hc
      have hd : (decide (cnv.seqname = c)) = false :=
        decide_eq_false (fun h => hc h.symm)
      simp [List.filter_cons, hd]
    have hfilt_pos :
        (cnv :: rest).filter (fun r => r.seqname = cnv.seqname) =
          cnv :: rest.filter (fun r => r.seqname = cnv.seqname) := by
      simp [List.filter_cons]
    rcases hv : m cnv.seqname with _ | ⟨v, vs⟩
    · -- first record for this contig: start a fresh vector
      have hrun : readCnvsLoop (cnv :: rest) m =
          readCnvsLoop rest (fun s => if s = cnv.seqname then [cnv] else m s) := by
        simp only [readCnvsLoop, hv]
      have hnames₁ : ∀ c r, r ∈ (fun s => if s = cnv.seqname then [cnv] else m s) c →
          r.seqname = c := by
        intro c r hrm
        dsimp only at hrm
        by_cases hc : c = cnv.seqname
        · rw [if_pos hc] at hrm
          rcases List.mem_singleton.mp hrm with rfl
          exact hc.symm
        · rw [if_neg hc] at hrm
          exact hnames c r hrm
      have hchain₁ : ∀ c, ((fun s => if s = cnv.seqname then [cnv] else m s) c).Chain' cnvAdj := by
        intro c
        dsimp only
        by_cases hc : c = cnv.seqname
        · rw [if_pos hc]; exact List.chain'_singleton _
        · rw [if_neg hc]; exact hchain c
      have hkey : ∀ c,
          (fun s => if s = cnv.seqname then [cnv] else m s) c ++
              rest.filter (fun r => r.seqname = c) =
            m c ++ (cnv :: rest).filter (fun r => r.seqname = c) := by
        intro c
        dsimp only
        by_cases hc : c = cnv.seqname
        · subst hc
          rw [if_pos rfl, hfilt_pos, hv]
          rfl
        · rw [if_neg hc, hfilt_eq c hc]
      obtain ⟨hiff, hval⟩ := ih _ hnames₁ hchain₁
      refine ⟨?_, ?_⟩
      · rw [hrun, hiff]
        exact ⟨fun h c => hkey c ▸ h c, fun h c => (hkey c).symm ▸ h c⟩
      · intro m' hm' c
        rw [hrun] at hm'
        rw [hval m' hm' c, hkey c]
    · -- the contig already has records: compare with the last one
      have hlast_mem : (v :: vs).getLast (List.cons_ne_nil v vs) ∈ m cnv.seqname := by
        rw [hv]; exact List.getLast_mem _
      have hpseq : ((v :: vs).getLast (List.cons_ne_nil v vs)).seqname = cnv.seqname :=
        hnames cnv.seqname _ hlast_mem
      have hlast? : (m cnv.seqname).getLast? =
          some ((v :: vs).getLast (List.cons_ne_nil v vs)) := by
        rw [hv, List.getLast?_eq_getLast _ (List.cons_ne_nil v vs)]
      by_cases hbad : ((v :: vs).getLast (List.cons_ne_nil v vs)).stop > cnv.start
      · -- unsorted/overlapping input: the loop errors out
        have hrun : readCnvsLoop (cnv :: rest) m =
            .error "CNV file is not coordinate sorted" := by
          simp only [readCnvsLoop, hv]
          rw [if_pos ⟨hbad, hpseq⟩]
        refine ⟨?_, ?_⟩
        · rw [hrun]
          constructor
          · rintro ⟨m', hm'⟩; cases hm'
          · intro h
            exfalso
            have hc := h cnv.seqname
            rw [hfilt_pos] at hc
            rcases (List.chain'_append.mp hc).2.2 _ hlast? cnv rfl with hle
            exact absurd hbad (not_lt.mpr hle)
        · intro m' hm'
          rw [hrun] at hm'
          cases hm'
      · -- sorted so far: append and continue
        have hrun : readCnvsLoop (cnv :: rest) m =
            readCnvsLoop rest (fun s => if s = cnv.seqname then m s ++ [cnv] else m s) := by
          simp only [readCnvsLoop, hv]
          rw [if_neg (fun h => hbad h.1)]
        have hnames₂ : ∀ c r,
            r ∈ (fun s => if s = cnv.seqname then m s ++ [cnv] else m s) c →
            r.seqname = c := by
          intro c r hrm
          dsimp only at hrm
          by_cases hc : c = cnv.seqname
          · rw [if_pos hc] at hrm
            rcases List.mem_append.mp hrm with h | h
            · exact hnames _ r h
            · rcases List.mem_singleton.mp h with rfl; exact hc.symm
          · rw [if_neg hc] at hrm
            exact hnames c r hrm
        have hchain₂ : ∀ c,
            ((fun s => if s = cnv.seqname then m s ++ [cnv] else m s) c).Chain' cnvAdj := by
          intro c
          dsimp only
          by_cases hc : c = cnv.seqname
          · subst hc
            rw [if_pos rfl]
            rw [List.chain'_append]
            refine ⟨hchain _, List.chain'_singleton _, ?_⟩
            intro x hx y hy
            rw [hlast?] at hx
            rcases Option.mem_some_iff.mp hx with rfl
            rcases Option.mem_some_iff.mp (by simpa using hy) with rfl
            exact not_lt.mp hbad
          · rw [if_neg hc]; exact hchain c
        have hkey : ∀ c,
            (fun s => if s = cnv.seqname then m s ++ [cnv] else m s) c ++
                rest.filter (fun r => r.seqname = c) =
              m c ++ (cnv :: rest).filter (fun r => r.seqname = c) := by
          intro c
          dsimp only
          by_cases hc : c = cnv.seqname
          · subst hc
            rw [if_pos rfl, hfilt_pos, List.append_assoc]
            rfl
          · rw [if_neg hc, hfilt_eq c hc]
        obtain ⟨hiff, hval⟩ := ih _ hnames₂ hchain₂
        refine ⟨?_, ?_⟩
        · rw [hrun, hiff]
          exact ⟨fun h c => hkey c ▸ h c, fun h c => (hkey c).symm ▸ h c⟩
        · intro m' hm' c
          rw [hrun] at hm'
          rw [hval m' hm' c, hkey c]

/-- C8, counterexample to the stated error threshold: `read_cnvs` rejects two
regions on a contig where the second starts at `9` and the first ends at `10`,
even though `9 < 10 - 1` is false, so the loader errors in a case where the claim
says it must not. -/
theorem readCnvs_counterexample :
    readCnvs [⟨"chrA", 0, 10, 1⟩, ⟨"chrA", 9, 20, 2⟩] =
      .error "CNV file is not coordinate sorted" ∧
    ¬ ((9 : ℤ) < 10 - 1) := by
  exact ⟨rfl, by decide⟩

/-- C8 (amended): `read_cnvs` returns a hard error exactly when, within one
contig, a region's start is strictly less than the immediately preceding
same-contig region's end (`prev.end > cnv.start`); otherwise it returns the
per-contig region lists in input order. -/
theorem readCnvs_spec (recs : List CopyNumberVariant) :
    ((∃ m, readCnvs recs = .ok m) ↔
      ∀ c, (recs.filter (fun r => r.seqname = c)).Chain' cnvAdj) ∧
    (∀ m, readCnvs recs = .ok m →
      ∀ c, m c = recs.filter (fun r => r.seqname = c)) := by
  obtain ⟨hiff, hval⟩ := readCnvsLoop_spec recs (fun _ => [])
    (fun c r hr => absurd hr (List.not_mem_nil r))
    (fun _ => List.chain'_nil)
  refine ⟨?_, ?_⟩
  · rw [readCnvs, hiff]
    simp
  · intro m hm c
    have := hval m hm c
    simpa using this

/-- Witness for C8 at a concrete input: two properly sorted regions on one contig
load successfully, and the resulting map holds them in input order. -/
theorem readCnvs_spec_witness :
    (∃ m, readCnvs [⟨"chrA", 0, 10, 1⟩, ⟨"chrA", 10, 20, 2⟩] = .ok m ∧
      m "chrA" = [⟨"chrA", 0, 10, 1⟩, ⟨"chrA", 10, 20, 2⟩]) := by
  obtain ⟨m, hm⟩ := (readCnvs_spec [⟨"chrA", 0, 10, 1⟩, ⟨"chrA", 10, 20, 2⟩]).1.mpr
    (by
      intro c
      by_cases hc : c = "chrA"
      · subst hc
        simp [List.filter_cons, List.chain'_cons, cnvAdj]
      · have h1 : (decide ((("chrA" : String)) = c)) = false :=
          decide_eq_false (fun h => hc h.symm)
        simp [List.filter_cons, h1])
  refine ⟨m, hm, ?_⟩
  rw [(readCnvs_spec _).2 m hm "chrA"]
  simp [List.filter_cons]

/-- C9, counterexample: `read_trs` accepts a BED record whose length `31 - 10 = 21`
is not a multiple of its period `4`, returning it in the locus buffer instead of
rejecting it. -/
theorem readTrs_counterexample :
    readTrs [⟨"chr1", 10, 31, 4, "ACGT"⟩] (fun _ => some 2) =
      .ok [⟨⟨"chr1", 10, 31, 4, "ACGT"⟩, 2, none, none, .Pass⟩] ∧
    ¬ ((31 : ℤ) - 10) % 4 = 0 := by
  exact ⟨rfl, by decide⟩

/-- C9 (amended): `read_trs` performs no period-divisibility validation at load
time: every deserialized record is pushed onto the locus buffer, with its copy
number taken from the ploidy mapping (defaulting to 0 for absent contigs).  The
`(end - start) % period == 0` invariant is enforced only later, by the assertion
inside `get_reference_len` (embedded as returning `none`). -/
theorem readTrs_spec :
    (∀ (recs : List RepeatReferenceInfo) (ploidy : String → Option ℕ),
      readTrs recs ploidy =
        .ok (recs.map fun r =>
          { referenceInfo := r
            copyNumber := (ploidy r.seqname).getD 0
            alleleLengths := none
            genotype := none
            filter := .Pass })) ∧
    (∀ r : RepeatReferenceInfo,
      ¬ (r.stop - r.start) % r.period = 0 → getReferenceLen r = none) := by
  refine ⟨fun recs ploidy => rfl, ?_⟩
  intro r hr
  simp [getReferenceLen, hr]

/-- Witness for C9 at a concrete input: a record violating the period invariant is
still loaded; `get_reference_len` refuses it. -/
theorem readTrs_spec_witness :
    readTrs [⟨"chr1", 10, 31, 4, "ACGT"⟩] (fun _ => none) =
      .ok [⟨⟨"chr1", 10, 31, 4, "ACGT"⟩, 0, none, none, .Pass⟩] ∧
    getReferenceLen ⟨"chr1", 10, 31, 4, "ACGT"⟩ = none := by
  exact ⟨readTrs_spec.1 [⟨"chr1", 10, 31, 4, "ACGT"⟩] (fun _ => none),
    readTrs_spec.2 ⟨"chr1", 10, 31, 4, "ACGT"⟩ (by decide)⟩

/-- C2, counterexample: the `"freq"` comparator orders by count only.  The two
association lists below hold the same histogram contents (they are permutations
of each other), yet sorting yields different outputs, and on the second input the
tied counts appear with allele length 5 before 2 — not ascending.  So the sorted
result is neither tie-broken by allele length nor a function of the histogram
contents alone. -/
theorem sortByFreq_counterexample :
    ([((2 : ℤ), (3 : ℚ)), (5, 3)]).Perm [((5 : ℤ), (3 : ℚ)), (2, 3)] ∧
    alleleFreqsAsNdarrays ⟨⟨"chr1", 10, 30, 2, "GT"⟩, 2, some [(5, 3), (2, 3)], none, .Pass⟩
        (some "freq") = ([5, 2], [3, 3]) ∧
    alleleFreqsAsNdarrays ⟨⟨"chr1", 10, 30, 2, "GT"⟩, 2, some [(2, 3), (5, 3)], none, .Pass⟩
        (some "freq") = ([2, 5], [3, 3]) ∧
    ¬ (5 : ℤ) ≤ 2 := by
  refine ⟨List.Perm.swap _ _ _, ?_, ?_, by decide⟩ <;> rfl

/-- C2 (amended): sorting with `"freq"` yields a permutation of the histogram
whose counts are in descending order; the relative order of entries with equal
counts is unspecified (it depends on the `HashMap` iteration order), so the
result is guaranteed to be a deterministic function of the histogram contents
only when all counts are pairwise distinct. -/
theorem sortByFreq_spec (h : List (ℤ × ℚ)) :
    (sortByFreq h).Perm h ∧
    (sortByFreq h).Sorted freqRel ∧
    (∀ h', h.Perm h' → h.Pairwise (fun a b => a.2 ≠ b.2) →
      sortByFreq h = sortByFreq h') := by
  refine ⟨List.perm_insertionSort _ h, List.sorted_insertionSort _ h, ?_⟩
  intro h' hperm hpw
  have s1 : (sortByFreq h).Sorted freqRel := List.sorted_insertionSort _ h
  have s2 : (sortByFreq h').Sorted freqRel := List.sorted_insertionSort _ h'
  have hps : (sortByFreq h).Perm (sortByFreq h') :=
    ((List.perm_insertionSort _ h).trans hperm).trans (List.perm_insertionSort _ h').symm
  have hpw1 : (sortByFreq h).Pairwise (fun a b => a.2 ≠ b.2) :=
    (List.Perm.pairwise_iff (fun hab => Ne.symm hab) (List.perm_insertionSort _ h)).mpr hpw
  have hpw2 : (sortByFreq h').Pairwise (fun a b => a.2 ≠ b.2) :=
    (List.Perm.pairwise_iff (fun hab => Ne.symm hab) hps).mp hpw1
  have st1 : (sortByFreq h).Pairwise (fun a b => b.2 < a.2) :=
    (s1.and hpw1).imp (fun hab => lt_of_le_of_ne hab.1 (fun he => hab.2 he.symm))
  have st2 : (sortByFreq h').Pairwise (fun a b => b.2 < a.2) :=
    (s2.and hpw2).imp (fun hab => lt_of_le_of_ne hab.1 (fun he => hab.2 he.symm))
  haveI : IsAntisymm (ℤ × ℚ) (fun a b => b.2 < a.2) :=
    ⟨fun a b h1 h2 => absurd (lt_trans h1 h2) (lt_irrefl _)⟩
  exact List.eq_of_perm_of_sorted hps st1 st2

/-- Witness for C2 at a concrete input: a two-entry histogram with distinct
counts sorts descending by count, and both iteration orders give the same
result. -/
theorem sortByFreq_spec_witness :
    (sortByFreq [((10 : ℤ), (12 : ℚ)), (12, 10)]).Perm [(10, 12), (12, 10)] ∧
    (sortByFreq [((10 : ℤ), (12 : ℚ)), (12, 10)]).Sorted freqRel ∧
    sortByFreq [((10 : ℤ), (12 : ℚ)), (12, 10)] = sortByFreq [(12, 10), (10, 12)] := by
  obtain ⟨h1, h2, h3⟩ := sortByFreq_spec [((10 : ℤ), (12 : ℚ)), (12, 10)]
  exact ⟨h1, h2, h3 [(12, 10), (10, 12)] (List.Perm.swap _ _ _) (by norm_num)⟩

/-- Bumping a histogram key increments exactly that key's count by one. -/
theorem histLookup_bumpHist (h : List (ℤ × ℚ)) (k v : ℤ) :
    histLookup (bumpHist h k) v =
      if v = k then histLookup h k + 1 else histLookup h v := by
  induction h with
  | nil =>
    by_cases hv : v = k
    · subst hv; simp [bumpHist, histLookup]
    · have : ¬ k = v := fun h => hv h.symm
      simp [bumpHist, histLookup, hv, this]
  | cons p t ih =>
    by_cases hp : p.1 = k
    · by_cases hv : v = k
      · subst hv; simp [bumpHist, histLookup, hp]
      · have hpv : ¬ p.1 = v := by rw [hp]; exact fun h => hv h.symm
        have hkv : ¬ k = v := fun h => hv h.symm
        simp [bumpHist, histLookup, hp, hpv, hv, hkv]
    · by_cases hv : v = k
      · subst hv
        have hpv : ¬ p.1 = v := hp
        simp [bumpHist, histLookup, hp, hpv, ih]
      · by_cases hpv : p.1 = v
        · simp [bumpHist, histLookup, hp, hpv, hv]
        · simp [bumpHist, histLookup, hp, hpv, hv, ih]

/-- Bumping never empties a histogram. -/
theorem bumpHist_ne_nil (h : List (ℤ × ℚ)) (k : ℤ) : bumpHist h k ≠ [] := by
  cases h with
  | nil => simp [bumpHist]
  | cons p t => by_cases hp : p.1 = k <;> simp [bumpHist, hp]

theorem rangeOverlap_ok (a b c d : ℤ) (hab : a ≤ b) (hcd : c ≤ d) :
    rangeOverlap a b c d = .ok (max 0 (min b d - max a c + 1)) := by
  have h : ¬(a > b ∨ c > d) := by omega
  simp [rangeOverlap, h]

/-- For a non-degenerate locus and a positive-length operation, `cigarStep`
cannot hit the `range_overlap` error path. -/
theorem cigarStep_ok (trStart trEnd : ℤ) (hse : trStart ≤ trEnd - 1)
    (op : Cigar) (pos acc : ℤ) (hlen : 0 < op.opLen) :
    ∃ pa, cigarStep trStart trEnd op pos acc = .ok pa := by
  have hl : (1 : ℤ) ≤ (op.opLen : ℤ) := by exact_mod_cast hlen
  cases op with
  | Match l =>
    have hab : pos ≤ pos + (l : ℤ) - 1 := by simp only [Cigar.opLen] at hl; omega
    simp only [cigarStep, cigarConsumesRef, cigarAdvancesTrLen, Cigar.opLen]
    rw [rangeOverlap_ok _ _ _ _ hab hse]
    exact ⟨_, rfl⟩
  | Equal l =>
    have hab : pos ≤ pos + (l : ℤ) - 1 := by simp only [Cigar.opLen] at hl; omega
    simp only [cigarStep, cigarConsumesRef, cigarAdvancesTrLen, Cigar.opLen]
    rw [rangeOverlap_ok _ _ _ _ hab hse]
    exact ⟨_, rfl⟩
  | Diff l =>
    have hab : pos ≤ pos + (l : ℤ) - 1 := by simp only [Cigar.opLen] at hl; omega
    simp only [cigarStep, cigarConsumesRef, cigarAdvancesTrLen, Cigar.opLen]
    rw [rangeOverlap_ok _ _ _ _ hab hse]
    exact ⟨_, rfl⟩
  | Ins l => exact ⟨_, rfl⟩
  | Del l => exact ⟨_, rfl⟩
  | RefSkip l => exact ⟨_, rfl⟩
  | SoftClip l => exact ⟨_, rfl⟩
  | HardClip l => exact ⟨_, rfl⟩
  | Pad l => exact ⟨_, rfl⟩

/-- If the locus is non-degenerate and all CIGAR operation lengths are positive,
`allele_length_from_cigar`'s loop cannot hit the `range_overlap` error path. -/
theorem alleleLoop_ok (trStart trEnd : ℤ) (hse : trStart ≤ trEnd - 1) :
    ∀ (ops : List Cigar) (pos acc : ℤ), (∀ op ∈ ops, 0 < op.opLen) →
      ∃ a, alleleLoop trStart trEnd ops pos acc = .ok a := by
  intro ops
  induction ops with
  | nil => exact fun _ acc _ => ⟨acc, rfl⟩
  | cons op rest ih =>
    intro pos acc hlen
    have hrest : ∀ o ∈ rest, 0 < o.opLen := fun o h => hlen o (List.mem_cons_of_mem _ h)
    have hhead : 0 < op.opLen := hlen op (List.mem_cons_self _ _)
    obtain ⟨⟨pos', acc'⟩, hstep⟩ := cigarStep_ok trStart trEnd hse op pos acc hhead
    simp only [alleleLoop, hstep]
    split
    · exact ⟨_, rfl⟩
    · exact ih _ _ hrest

/-- Helper for C6: full characterization of the read loop of
`extract_allele_lengths`, generalized over the accumulated histogram. -/
theorem extractLoop_spec (tr : TandemRepeat) (flank : ℕ)
    (hwf : tr.referenceInfo.start ≤ tr.referenceInfo.stop - 1) :
    ∀ (reads : List ReadRecord) (h0 : List (ℤ × ℚ)),
      (∀ r ∈ reads, ∀ op ∈ r.cigar, 0 < op.opLen) →
      ∃ h, extractLoop tr flank reads h0 = .ok h ∧
        (∀ v, histLookup h v = histLookup h0 v +
          ((reads.filter (fun r => contribValue tr flank r = some v)).length : ℚ)) ∧
        (h = [] ↔ h0 = [] ∧ ∀ r ∈ reads, contribValue tr flank r = none) := by
  intro reads
  induction reads with
  | nil =>
    intro h0 _
    exact ⟨h0, rfl, by simp, by simp⟩
  | cons r rest ih =>
    intro h0 hlen
    have hrest : ∀ rr ∈ rest, ∀ op ∈ rr.cigar, 0 < op.opLen :=
      fun rr hh => hlen rr (List.mem_cons_of_mem _ hh)
    have hrhead : ∀ op ∈ r.cigar, 0 < op.opLen := hlen r (List.mem_cons_self _ _)
    by_cases hflag : (r.isDuplicate || r.isSupplementary || r.isQualityCheckFailed) = true
    · have hcv : contribValue tr flank r = none := by
        rw [contribValue, if_pos hflag]
      obtain ⟨h, hrun, hcount, hempty⟩ := ih h0 hrest
      refine ⟨h, ?_, ?_, ?_⟩
      · rw [show extractLoop tr flank (r :: rest) h0 = extractLoop tr flank rest h0 by
          rw [extractLoop, if_pos hflag]]
        exact hrun
      · intro v
        rw [hcount v, List.filter_cons_of_neg (by simp [hcv])]
      · rw [hempty]
        simp [List.forall_mem_cons, hcv]
    · by_cases hencl : r.pos ≥ tr.referenceInfo.start - (flank : ℤ) ∨
          r.referenceEnd ≤ tr.referenceInfo.stop + (flank : ℤ)
      · have hcv : contribValue tr flank r = none := by
          rw [contribValue, if_neg hflag, if_pos hencl]
        obtain ⟨h, hrun, hcount, hempty⟩ := ih h0 hrest
        refine ⟨h, ?_, ?_, ?_⟩
        · rw [show extractLoop tr flank (r :: rest) h0 = extractLoop tr flank rest h0 by
            rw [extractLoop, if_neg hflag, if_pos hencl]]
          exact hrun
        · intro v
          rw [hcount v, List.filter_cons_of_neg (by simp [hcv])]
        · rw [hempty]
          simp [List.forall_mem_cons, hcv]
      · obtain ⟨acc, hacc⟩ :=
          alleleLoop_ok tr.referenceInfo.start tr.referenceInfo.stop hwf r.cigar r.pos 0 hrhead
        have hacc' : alleleLengthFromCigar r.cigar r.pos tr.referenceInfo.start
            tr.referenceInfo.stop = .ok acc := hacc
        by_cases hmod : acc % tr.referenceInfo.period = 0
        · have hcv : contribValue tr flank r = some (acc / tr.referenceInfo.period) := by
            rw [contribValue, if_neg hflag, if_neg hencl, hacc']
            exact if_pos hmod
          obtain ⟨h, hrun, hcount, hempty⟩ :=
            ih (bumpHist h0 (acc / tr.referenceInfo.period)) hrest
          refine ⟨h, ?_, ?_, ?_⟩
          · rw [show extractLoop tr flank (r :: rest) h0 =
                extractLoop tr flank rest (bumpHist h0 (acc / tr.referenceInfo.period)) by
              rw [extractLoop, if_neg hflag, if_neg hencl, hacc']
              exact if_pos hmod]
            exact hrun
          · intro v
            rw [hcount v, histLookup_bumpHist]
            by_cases hv : v = acc / tr.referenceInfo.period
            · rw [if_pos hv, List.filter_cons_of_pos (by simp [hcv, hv])]
              subst hv
              push_cast [List.length_cons]
              ring
            · rw [if_neg hv, List.filter_cons_of_neg (by simp [hcv]; exact fun h => hv h.symm)]
          · constructor
            · intro hh
              rw [hempty] at hh
              exact absurd hh.1 (bumpHist_ne_nil h0 _)
            · rintro ⟨_, hall⟩
              exact absurd (hall r (List.mem_cons_self _ _)) (by simp [hcv])
        · have hcv : contribValue tr flank r = none := by
            rw [contribValue, if_neg hflag, if_neg hencl, hacc']
            exact if_neg hmod
          obtain ⟨h, hrun, hcount, hempty⟩ := ih h0 hrest
          refine ⟨h, ?_, ?_, ?_⟩
          · rw [show extractLoop tr flank (r :: rest) h0 = extractLoop tr flank rest h0 by
              rw [extractLoop, if_neg hflag, if_neg hencl, hacc']
              exact if_neg hmod]
            exact hrun
          · intro v
            rw [hcount v, List.filter_cons_of_neg (by simp [hcv])]
          · rw [hempty]
            simp [List.forall_mem_cons, hcv]

/-- C6: for a well-formed locus, each fetched read bumps the histogram bucket
`acc / period` by exactly one if and only if it passes every criterion (not
duplicate/supplementary/QC-failed, encloses the locus with flank on both sides,
and its allele length is a multiple of the period), reads failing any criterion
contribute nothing, and after all reads the histogram is stored on the locus only
if at least one read contributed, otherwise the locus is left unchanged (its
histogram stays absent). -/
theorem extractAlleleLengths_spec (tr : TandemRepeat) (reads : List ReadRecord)
    (flank : ℕ)
    (hwf : tr.referenceInfo.start < tr.referenceInfo.stop)
    (hlen : ∀ r ∈ reads, ∀ op ∈ r.cigar, 0 < op.opLen)
    (habsent : tr.alleleLengths = none) :
    ∃ h, extractAlleleLengths tr reads flank =
        .ok (if ∀ r ∈ reads, contribValue tr flank r = none then tr
             else { tr with alleleLengths := some h }) ∧
      ∀ v, histLookup h v =
        ((reads.filter (fun r => contribValue tr flank r = some v)).length : ℚ) := by
  obtain ⟨h, hrun, hcount, hempty⟩ :=
    extractLoop_spec tr flank (by omega) reads [] hlen
  refine ⟨h, ?_, fun v => by simpa [histLookup] using hcount v⟩
  rw [extractAlleleLengths, hrun]
  by_cases hall : ∀ r ∈ reads, contribValue tr flank r = none
  · have hne : h = [] := hempty.mpr ⟨rfl, hall⟩
    rw [if_pos hall]
    simp [hne]
  · have hne : ¬ h = [] := fun hh => hall (hempty.mp hh).2
    rw [if_neg hall]
    simp [List.isEmpty_iff, hne]

/-- Witness for C6 at a concrete input: one clean read starting at position 20
with a single 100M match over the locus `[40, 50)` with period 5 and flank 5
contributes exactly one count to bucket `10 / 5 = 2`. -/
theorem extractAlleleLengths_spec_witness :
    ∃ h, extractAlleleLengths ⟨⟨"chr1", 40, 50, 5, "ACGTA"⟩, 2, none, none, .Pass⟩
        [⟨false, false, false, 20, [.Match 100]⟩] 5 =
        .ok (if ∀ r ∈ [(⟨false, false, false, 20, [.Match 100]⟩ : ReadRecord)],
              contribValue ⟨⟨"chr1", 40, 50, 5, "ACGTA"⟩, 2, none, none, .Pass⟩ 5 r = none
             then ⟨⟨"chr1", 40, 50, 5, "ACGTA"⟩, 2, none, none, .Pass⟩
             else { (⟨⟨"chr1", 40, 50, 5, "ACGTA"⟩, 2, none, none, .Pass⟩ : TandemRepeat) with
                      alleleLengths := some h }) ∧
      ∀ v, histLookup h v =
        (([(⟨false, false, false, 20, [.Match 100]⟩ : ReadRecord)].filter
          (fun r => contribValue ⟨⟨"chr1", 40, 50, 5, "ACGTA"⟩, 2, none, none, .Pass⟩ 5 r =
            some v)).length : ℚ) :=
  extractAlleleLengths_spec ⟨⟨"chr1", 40, 50, 5, "ACGTA"⟩, 2, none, none, .Pass⟩
    [⟨false, false, false, 20, [.Match 100]⟩] 5 (by decide)
    (by intro r hr op hop
        rcases List.mem_singleton.mp hr with rfl
        rcases List.mem_singleton.mp hop with rfl
        decide)
    rfl

/-- C4, counterexample to the stated `DP_ZERO` condition: a locus whose histogram
is present but has total read count 0 (copy number 1, `min_norm_depth = 1`) is
tagged `DP_OOR` by the depth check, not `DP_ZERO`: `get_norm_depth` is `None`
only when the histogram is absent. -/
theorem estimateGenotype_counterexample :
    (estimateGenotype ⟨⟨"chr1", 10, 30, 2, "GT"⟩, 1, some [(10, 0)], none, .Pass⟩
        1 none (fun _ => none)).1.filter = .DpOor ∧
    VcfFilter.DpOor ≠ VcfFilter.DpZero ∧
    (([((10 : ℤ), (0 : ℚ))].map (fun p => p.2)).sum = 0) := by
  refine ⟨?_, by decide, by norm_num⟩
  rw [estimateGenotype, if_neg (by norm_num)]
  dsimp only
  rw [if_pos (by norm_num)]

/-- C4 (amended): `estimate_genotype` returns an error if and only if it assigns
a non-PASS filter, with the tag determined by the first failing check in order:
`CN_ZERO` when the copy number is 0; else `DP_ZERO` exactly when the histogram is
absent (a present histogram with zero total reads falls through to the depth
check); else `DP_OOR` when the normalized depth is below `min_norm_depth` or
above `max_norm_depth`; else `CN_OOR` when the partition table has no entry for
the copy number; else `AMB_GT` when the minimum-distance search ties, a plateau
has unequal partition entries, or the carry check fires.  In every error case the
update touches only the filter, so the genotype is unchanged; on success the
filter is untouched and the genotype is set. -/
theorem estimateGenotype_spec (tr : TandemRepeat) (minD : ℚ) (maxD : Option ℚ)
    (pmap : ℕ → Option (List (List ℚ)))
    (hpm : ∀ m, pmap tr.copyNumber = some m → m ≠ []) :
    (tr.copyNumber = 0 →
      estimateGenotype tr minD maxD pmap = ({ tr with filter := .CnZero }, false)) ∧
    (tr.copyNumber ≠ 0 → tr.alleleLengths = none →
      estimateGenotype tr minD maxD pmap = ({ tr with filter := .DpZero }, false)) ∧
    (∀ hist n d, tr.copyNumber ≠ 0 → tr.alleleLengths = some hist →
      getNMappedReads tr = some n → getNormDepth tr = some d →
      ((d < minD ∨ aboveMax maxD d = true) →
        estimateGenotype tr minD maxD pmap = ({ tr with filter := .DpOor }, false)) ∧
      (¬(d < minD ∨ aboveMax maxD d = true) →
        (pmap tr.copyNumber = none →
          estimateGenotype tr minD maxD pmap = ({ tr with filter := .CnOor }, false)) ∧
        (∀ gts, pmap tr.copyNumber = some gts →
          (ambGtCondition tr.copyNumber n hist gts →
            estimateGenotype tr minD maxD pmap = ({ tr with filter := .AmbGt }, false)) ∧
          (¬ ambGtCondition tr.copyNumber n hist gts →
            (estimateGenotype tr minD maxD pmap).2 = true ∧
            (estimateGenotype tr minD maxD pmap).1.filter = tr.filter ∧
            (estimateGenotype tr minD maxD pmap).1.genotype ≠ none)))) := by
  refine ⟨?_, ?_, ?_⟩
  · intro h
    rw [estimateGenotype, if_pos h]
  · intro hcn hnone
    rw [estimateGenotype, if_neg hcn, hnone]
  · intro hist n d hcn hhist hn hd
    have hnv : n = (⌊(hist.map (fun p => p.2)).sum⌋).toNat := by
      rw [getNMappedReads, hhist] at hn
      simpa using hn.symm
    have hdv : d = ((n : ℚ) / (tr.copyNumber : ℚ)) := by
      rw [getNormDepth, getNMappedReads, hhist] at hd
      simp at hd
      rw [← hd, hnv]
    have hrun0 : estimateGenotype tr minD maxD pmap =
        (if d < minD then ({ tr with filter := .DpOor }, false)
        else if aboveMax maxD d then ({ tr with filter := .DpOor }, false)
        else
          match pmap tr.copyNumber with
          | none => ({ tr with filter := .CnOor }, false)
          | some possibleGts =>
            match mostLikelyGtIdx possibleGts n tr.copyNumber
                (obsDistrOf tr.copyNumber ((sortByFreq hist).map (·.2))) with
            | .error _ => ({ tr with filter := .AmbGt }, false)
            | .ok minIdx =>
              if (findPlateaus (obsDistrOf tr.copyNumber
                  ((sortByFreq hist).map (·.2)))).all
                  (fun p => sliceAllEqHead (possibleGts.getD minIdx []) p) then
                if carryAmb (obsCarry tr.copyNumber ((sortByFreq hist).map (·.2)))
                    ((((sortByFreq hist).map (·.1)).zip
                      (possibleGts.getD minIdx [])).filter (fun p => 0 < p.2)).length
                    tr.copyNumber
                    ((obsDistrOf tr.copyNumber ((sortByFreq hist).map (·.2))).getD
                      (tr.copyNumber - 1) 0) then
                  ({ tr with filter := .AmbGt }, false)
                else
                  ({ tr with genotype := some (sortByLen
                    ((((sortByFreq hist).map (·.1)).zip
                      (possibleGts.getD minIdx [])).filter (fun p => 0 < p.2))) }, true)
              else ({ tr with filter := .AmbGt }, false)) := by
      rw [estimateGenotype, if_neg hcn, hhist]
      dsimp only
      rw [← hnv, ← hdv]
    refine ⟨?_, ?_⟩
    · intro hout
      by_cases hlow : d < minD
      · rw [hrun0, if_pos hlow]
      · rcases hout with hlow' | hhigh'
        · exact absurd hlow' hlow
        · rw [hrun0, if_neg hlow, if_pos hhigh']
    · intro hin
      push_neg at hin
      obtain ⟨hlow, hhigh⟩ := hin
      have hlow' : ¬ d < minD := not_lt.mpr hlow
      have hrun1 : estimateGenotype tr minD maxD pmap =
          (match pmap tr.copyNumber with
           | none => ({ tr with filter := .CnOor }, false)
           | some possibleGts =>
             match mostLikelyGtIdx possibleGts n tr.copyNumber
                 (obsDistrOf tr.copyNumber ((sortByFreq hist).map (·.2))) with
             | .error _ => ({ tr with filter := .AmbGt }, false)
             | .ok minIdx =>
               if (findPlateaus (obsDistrOf tr.copyNumber
                   ((sortByFreq hist).map (·.2)))).all
                   (fun p => sliceAllEqHead (possibleGts.getD minIdx []) p) then
                 if carryAmb (obsCarry tr.copyNumber ((sortByFreq hist).map (·.2)))
                     ((((sortByFreq hist).map (·.1)).zip
                       (possibleGts.getD minIdx [])).filter (fun p => 0 < p.2)).length
                     tr.copyNumber
                     ((obsDistrOf tr.copyNumber ((sortByFreq hist).map (·.2))).getD
                       (tr.copyNumber - 1) 0) then
                   ({ tr with filter := .AmbGt }, false)
                 else
                   ({ tr with genotype := some (sortByLen
                     ((((sortByFreq hist).map (·.1)).zip
                       (possibleGts.getD minIdx [])).filter (fun p => 0 < p.2))) }, true)
               else ({ tr with filter := .AmbGt }, false)) := by
        rw [hrun0, if_neg hlow', if_neg hhigh]
      refine ⟨?_, ?_⟩
      · intro hnonepm
        rw [hrun1, hnonepm]
      · intro gts hgts
        rcases hml : mostLikelyGtIdx gts n tr.copyNumber
            (obsDistrOf tr.copyNumber ((sortByFreq hist).map (·.2))) with e | minIdx
        · have hcond : ambGtCondition tr.copyNumber n hist gts := by
            rw [ambGtCondition]
            simp only [hml]
          refine ⟨fun _ => ?_, fun habs => absurd hcond habs⟩
          rw [hrun1, hgts]
          simp only [hml]
        · have hcond : ambGtCondition tr.copyNumber n hist gts ↔
              (¬ ((findPlateaus (obsDistrOf tr.copyNumber
                  ((sortByFreq hist).map (·.2)))).all
                  (fun p => sliceAllEqHead (gts.getD minIdx []) p)) = true ∨
               carryAmb (obsCarry tr.copyNumber ((sortByFreq hist).map (·.2)))
                 ((((sortByFreq hist).map (·.1)).zip (gts.getD minIdx [])).filter
                   (fun p => 0 < p.2)).length tr.copyNumber
                 ((obsDistrOf tr.copyNumber ((sortByFreq hist).map (·.2))).getD
                   (tr.copyNumber - 1) 0) = true) := by
            rw [ambGtCondition]
            simp only [hml]
          constructor
          · intro hamb
            rw [hrun1, hgts]
            simp only [hml]
            rcases hcond.mp hamb with hplat | hcarry
            · by_cases hall : ((findPlateaus (obsDistrOf tr.copyNumber
                  ((sortByFreq hist).map (·.2)))).all
                  (fun p => sliceAllEqHead (gts.getD minIdx []) p)) = true
              · exact absurd hall hplat
              · rw [if_neg hall]
            · by_cases hall : ((findPlateaus (obsDistrOf tr.copyNumber
                  ((sortByFreq hist).map (·.2)))).all
                  (fun p => sliceAllEqHead (gts.getD minIdx []) p)) = true
              · rw [if_pos hall, if_pos hcarry]
              · rw [if_neg hall]
          · intro hnamb
            have hno : ¬ (¬ ((findPlateaus (obsDistrOf tr.copyNumber
                ((sortByFreq hist).map (·.2)))).all
                (fun p => sliceAllEqHead (gts.getD minIdx []) p)) = true ∨
              carryAmb (obsCarry tr.copyNumber ((sortByFreq hist).map (·.2)))
                ((((sortByFreq hist).map (·.1)).zip (gts.getD minIdx [])).filter
                  (fun p => 0 < p.2)).length tr.copyNumber
                ((obsDistrOf tr.copyNumber ((sortByFreq hist).map (·.2))).getD
                  (tr.copyNumber - 1) 0) = true) :=
              fun hx => hnamb (hcond.mpr hx)
            push_neg at hno
            obtain ⟨hall, hcarry⟩ := hno
            rw [hrun1, hgts]
            simp only [hml]
            rw [if_pos hall, if_neg hcarry]
            exact ⟨rfl, rfl, by simp⟩

/-- Witness for C4 at a concrete input: a locus with copy number 0 is tagged
`CN_ZERO` and the call fails. -/
theorem estimateGenotype_spec_witness :
    estimateGenotype ⟨⟨"chr1", 10, 30, 2, "GT"⟩, 0, none, none, .Pass⟩ 1 none
        (fun _ => none) =
      ({ (⟨⟨"chr1", 10, 30, 2, "GT"⟩, 0, none, none, .Pass⟩ : TandemRepeat) with
          filter := .CnZero }, false) :=
  (estimateGenotype_spec ⟨⟨"chr1", 10, 30, 2, "GT"⟩, 0, none, none, .Pass⟩ 1 none
    (fun _ => none) (fun m h => by simp at h)).1 rfl

/-- The inner loop only prepends to its accumulator. -/
theorem innerLoop_acc (f : ℕ) : ∀ (x y : ℕ) (acc : List ℕ),
    innerLoop f x y acc = innerLoop f x y [] ++ acc := by
  induction f with
  | zero => intro x y acc; rfl
  | succ f ih =>
    intro x y acc
    by_cases h : x ≤ y
    · rw [innerLoop, if_pos h, innerLoop, if_pos h, ih, ih x (y - x) [x],
        List.append_assoc]
      rfl
    · rw [innerLoop, if_neg h, innerLoop, if_neg h]
      rfl

/-- Invariants of the inner loop: starting from a nonincreasing positive
accumulator whose head is at most `x`, the result is a nonempty nonincreasing
stack of positive parts, its sum grows by exactly `x + y`, its head is at least
`x`, and every new element is at least `x`. -/
theorem innerLoop_good (f : ℕ) : ∀ (x y : ℕ) (acc : List ℕ), 1 ≤ x →
    acc.Chain' (· ≥ ·) → (∀ a ∈ acc, 1 ≤ a) → (∀ h ∈ acc.head?, h ≤ x) →
    (innerLoop f x y acc).Chain' (· ≥ ·) ∧
    (∀ a ∈ innerLoop f x y acc, 1 ≤ a) ∧
    (innerLoop f x y acc).sum = x + y + acc.sum ∧
    innerLoop f x y acc ≠ [] ∧
    (∀ h ∈ (innerLoop f x y acc).head?, x ≤ h) ∧
    (∀ a ∈ innerLoop f x y acc, a ∈ acc ∨ x ≤ a) := by
  induction f with
  | zero =>
    intro x y acc hx hch hpos hhead
    refine ⟨?_, ?_, ?_, ?_, ?_, ?_⟩
    · rw [innerLoop, List.chain'_cons']
      exact ⟨fun h hh => le_trans (hhead h hh) (Nat.le_add_right x y), hch⟩
    · intro a ha
      rcases List.mem_cons.mp ha with rfl | ha
      · omega
      · exact hpos a ha
    · rw [innerLoop, List.sum_cons]
    · exact List.cons_ne_nil _ _
    · intro h hh
      rw [innerLoop] at hh
      simp only [List.head?_cons, Option.mem_some_iff] at hh
      omega
    · intro a ha
      rcases List.mem_cons.mp ha with rfl | ha
      · right; omega
      · left; exact ha
  | succ f ih =>
    intro x y acc hx hch hpos hhead
    by_cases h : x ≤ y
    · rw [innerLoop, if_pos h]
      have hch' : (x :: acc).Chain' (· ≥ ·) := by
        rw [List.chain'_cons']
        exact ⟨fun b hb => hhead b hb, hch⟩
      have hpos' : ∀ a ∈ x :: acc, 1 ≤ a := by
        intro a ha
        rcases List.mem_cons.mp ha with rfl | ha
        · exact hx
        · exact hpos a ha
      have hhead' : ∀ b ∈ (x :: acc).head?, b ≤ x := by
        intro b hb
        simp only [List.head?_cons, Option.mem_some_iff] at hb
        omega
      obtain ⟨c1, c2, c3, c4, c5, c6⟩ := ih x (y - x) (x :: acc) hx hch' hpos' hhead'
      refine ⟨c1, c2, ?_, c4, c5, ?_⟩
      · rw [c3, List.sum_cons]
        omega
      · intro a ha
        rcases c6 a ha with hmem | hge
        · rcases List.mem_cons.mp hmem with rfl | hmem
          · right; omega
          · left; exact hmem
        · right; exact hge
    · rw [innerLoop, if_neg h]
      refine ⟨?_, ?_, ?_, ?_, ?_, ?_⟩
      · rw [List.chain'_cons']
        exact ⟨fun b hb => le_trans (hhead b hb) (Nat.le_add_right x y), hch⟩
      · intro a ha
        rcases List.mem_cons.mp ha with rfl | ha
        · omega
        · exact hpos a ha
      · rw [List.sum_cons]
      · exact List.cons_ne_nil _ _
      · intro b hb
        simp only [List.head?_cons, Option.mem_some_iff] at hb
        omega
      · intro a ha
        rcases List.mem_cons.mp ha with rfl | ha
        · right; omega
        · left; exact ha

/-- C5: the three reference computations of `allele_length_from_cigar` against the
locus `[40, 50)` for a read starting at position 20: a single 100M match gives 10,
`20M 6I 54M` gives 16, and `20M 5D 54M` gives 5. -/
theorem alleleLengthFromCigar_examples :
    alleleLengthFromCigar [.Match 100] 20 40 50 = .ok 10 ∧
    alleleLengthFromCigar [.Match 20, .Ins 6, .Match 54] 20 40 50 = .ok 16 ∧
    alleleLengthFromCigar [.Match 20, .Del 5, .Match 54] 20 40 50 = .ok 5 := by
  refine ⟨?_, ?_, ?_⟩ <;> rfl


/-! ### The Kelleher loop enumerates partitions: basic step lemmas -/

/-- Closed form of the inner loop when the fuel dominates `y`: it pushes
`y / x` copies of `x` and finishes with `x + y % x` on top. -/
theorem innerLoop_exact (f : ℕ) : ∀ (x y : ℕ) (acc : List ℕ), 1 ≤ x → y ≤ f →
    innerLoop f x y acc = (x + y % x) :: (List.replicate (y / x) x ++ acc) := by
  induction f with
  | zero =>
    intro x y acc hx hy
    have h0 : y = 0 := by omega
    subst h0
    rw [innerLoop]
    simp
  | succ f ih =>
    intro x y acc hx hy
    by_cases h : x ≤ y
    · rw [innerLoop, if_pos h, ih x (y - x) (x :: acc) hx (by omega)]
      have hq : y / x = (y - x) / x + 1 := Nat.div_eq_sub_div hx h
      have hm : y % x = (y - x) % x := Nat.mod_eq_sub_mod h
      rw [← hm] at *
      rw [hq, List.replicate_succ']
      simp [List.append_assoc]
    · rw [innerLoop, if_neg h]
      have h1 : y % x = y := Nat.mod_eq_of_lt (by omega)
      have h2 : y / x = 0 := Nat.div_eq_of_lt (by omega)
      rw [h1, h2]
      simp

/-- `stepOnce` on a stack of length at least two unfolds to the inner loop. -/
theorem stepOnce_eq (y0 x0 : ℕ) (rest : List ℕ) :
    stepOnce (y0 :: x0 :: rest) = innerLoop y0 (x0 + 1) (y0 - 1) rest := rfl

/-- Closed form of one outer-loop iteration. -/
theorem stepOnce_closed (y0 x0 : ℕ) (rest : List ℕ) :
    stepOnce (y0 :: x0 :: rest) =
      ((x0 + 1) + (y0 - 1) % (x0 + 1)) ::
        (List.replicate ((y0 - 1) / (x0 + 1)) (x0 + 1) ++ rest) := by
  rw [stepOnce_eq]
  exact innerLoop_exact y0 (x0 + 1) (y0 - 1) rest (by omega) (by omega)

/-- A nonincreasing chain headed by `a` dominates every later element
(the instance form of transitivity for an arbitrary transitive relation). -/
theorem chain_rel_of_head {α : Type} {R : α → α → Prop}
    (htr : ∀ a b c, R a b → R b c → R a c) :
    ∀ (w : List α) (a : α), (a :: w).Chain' R → ∀ b ∈ w, R a b := by
  intro w
  induction w with
  | nil => intro a _ b hb; simp at hb
  | cons c w ih =>
    intro a hch b hb
    have h1 : R a c := (List.chain'_cons.mp hch).1
    have h2 : (c :: w).Chain' R := (List.chain'_cons.mp hch).2
    rcases List.mem_cons.mp hb with rfl | hb
    · exact h1
    · exact htr a c b h1 (ih c h2 b hb)

/-- A list of positive naturals has at most `sum` elements. -/
theorem length_le_sum_of_pos : ∀ (l : List ℕ), (∀ a ∈ l, 1 ≤ a) → l.length ≤ l.sum := by
  intro l
  induction l with
  | nil => intro _; simp
  | cons a w ih =>
    intro hpos
    have ha := hpos a (by simp)
    have hw := ih (fun b hb => hpos b (List.mem_cons_of_mem a hb))
    simp only [List.length_cons, List.sum_cons]
    omega

/-- Constant lists are nonincreasing. -/
theorem chain_ge_replicate (a k : ℕ) : (List.replicate k a).Chain' (· ≥ ·) := by
  induction k with
  | zero => simp
  | succ k ih =>
    rw [List.replicate_succ, List.chain'_cons']
    refine ⟨fun b hb => ?_, ih⟩
    have hb' := List.eq_of_mem_replicate (List.mem_of_mem_head? hb)
    omega

/-- One outer-loop iteration preserves the generator invariant. -/
theorem stepOnce_good (n : ℕ) (s : List ℕ) (hg : GoodStack n s) (hlen : 2 ≤ s.length) :
    GoodStack n (stepOnce s) := by
  match s, hlen with
  | y0 :: x0 :: rest, _ =>
    obtain ⟨-, hch, hpos, hsum⟩ := hg
    have hy : 1 ≤ y0 := hpos y0 (by simp)
    have hch1 : (x0 :: rest).Chain' (· ≥ ·) := (List.chain'_cons.mp hch).2
    have hch2 : rest.Chain' (· ≥ ·) := (List.chain'_cons'.mp hch1).2
    have hhead : ∀ h ∈ rest.head?, h ≤ x0 + 1 := by
      intro h hh
      have := (List.chain'_cons'.mp hch1).1 h hh
      omega
    have hpos' : ∀ a ∈ rest, 1 ≤ a := by
      intro a ha
      exact hpos a (List.mem_cons_of_mem _ (List.mem_cons_of_mem _ ha))
    obtain ⟨c1, c2, c3, c4, -, -⟩ :=
      innerLoop_good y0 (x0 + 1) (y0 - 1) rest (by omega) hch2 hpos' hhead
    rw [stepOnce_eq]
    refine ⟨c4, c1, c2, ?_⟩
    rw [c3]
    simp only [List.sum_cons] at hsum
    omega

/-- A short good stack is the singleton `[n]`. -/
theorem good_short (n : ℕ) (t : List ℕ) (hg : GoodStack n t) (hlen : t.length < 2) :
    t = [n] := by
  obtain ⟨hne, -, -, hsum⟩ := hg
  match t, hne with
  | [a], _ =>
    simp only [List.sum_cons, List.sum_nil] at hsum
    simp [← hsum]
  | a :: b :: l, _ =>
    simp only [List.length_cons] at hlen
    omega

/-- No positive list summing to `n` is lexicographically above `[n]`. -/
theorem lex_single_top (n : ℕ) (u : List ℕ) (hpos : ∀ a ∈ u, 1 ≤ a)
    (hsum : u.sum = n) : ¬ List.Lex (· < ·) [n] u := by
  intro h
  cases h with
  | rel hlt =>
    rename_i a l
    have h1 : a ≤ (a :: l).sum :=
      List.single_le_sum (fun x _ => Nat.zero_le x) a (by simp)
    rw [hsum] at h1
    omega
  | cons hl =>
    rename_i l
    cases hl with
    | nil =>
      rename_i b l'
      have hb : 1 ≤ b := hpos b (by simp)
      simp only [List.sum_cons] at hsum
      omega

/-- Transitivity of the emission order. -/
theorem ascLt_trans {s t u : List ℕ} (h1 : ascLt s t) (h2 : ascLt t u) : ascLt s u := by
  unfold ascLt at h1 h2 ⊢
  exact Trans.trans h1 h2

/-- Irreflexivity of the emission order. -/
theorem ascLt_irrefl (s : List ℕ) : ¬ ascLt s s := by
  unfold ascLt
  exact irrefl s.reverse

/-- The singleton `[n]` is the greatest good stack in emission order. -/
theorem good_not_ascLt_single (n : ℕ) (t : List ℕ) (hg : GoodStack n t) :
    ¬ ascLt [n] t := by
  intro h
  unfold ascLt at h
  rw [List.reverse_singleton] at h
  obtain ⟨-, -, hpos, hsum⟩ := hg
  refine lex_single_top n t.reverse (fun a ha => hpos a (List.mem_reverse.mp ha)) ?_ h
  rw [List.sum_reverse]
  exact hsum




/-- Greedy minimality: among the ascending lists with parts `≥ x` and sum
`x + y1`, the one produced by the inner loop (`y1 / x` copies of `x` followed by
`x + y1 % x`) is the lexicographic minimum. -/
theorem minAsc (x : ℕ) (hx : 1 ≤ x) : ∀ (u : List ℕ) (y1 : ℕ),
    u.Chain' (· ≤ ·) → (∀ a ∈ u, x ≤ a) → u.sum = x + y1 →
    u = List.replicate (y1 / x) x ++ [x + y1 % x] ∨
      List.Lex (· < ·) (List.replicate (y1 / x) x ++ [x + y1 % x]) u := by
  intro u
  induction u with
  | nil =>
    intro y1 _ _ hsum
    simp only [List.sum_nil] at hsum
    omega
  | cons a w ih =>
    intro y1 hch hmem hsum
    have ha : x ≤ a := hmem a (by simp)
    by_cases hy : y1 < x
    · have hq : y1 / x = 0 := Nat.div_eq_of_lt hy
      have hr : y1 % x = y1 := Nat.mod_eq_of_lt hy
      rw [hq, hr, List.replicate_zero, List.nil_append]
      cases w with
      | nil =>
        left
        simp only [List.sum_cons, List.sum_nil] at hsum
        simp only [List.cons.injEq, and_true]
        omega
      | cons b w' =>
        exfalso
        have hb : x ≤ b := hmem b (by simp)
        simp only [List.sum_cons] at hsum
        omega
    · push_neg at hy
      have hq : y1 / x = (y1 - x) / x + 1 := Nat.div_eq_sub_div hx hy
      have hr : y1 % x = (y1 - x) % x := Nat.mod_eq_sub_mod hy
      rw [hq, hr, List.replicate_succ, List.cons_append]
      rcases Nat.lt_or_ge x a with hlt | hge
      · right
        exact List.Lex.rel hlt
      · have hax : a = x := le_antisymm hge ha
        subst hax
        have hch' : w.Chain' (· ≤ ·) := hch.tail
        have hmem' : ∀ b ∈ w, a ≤ b := fun b hb => hmem b (List.mem_cons_of_mem _ hb)
        have hsum' : w.sum = a + (y1 - a) := by
          simp only [List.sum_cons] at hsum
          omega
        rcases ih (y1 - a) hch' hmem' hsum' with h | h
        · left
          rw [h]
        · right
          exact List.Lex.cons h


/-- Successor minimality, stated on ascending lists: any ascending positive
list `u` with the right sum that lies lexicographically above
`C ++ [x0, y0]` is at least `C` followed by the inner loop's greedy
continuation. -/
theorem step_min_aux (x0 y0 : ℕ) (hy : 1 ≤ y0) :
    ∀ (C u : List ℕ), u.Chain' (· ≤ ·) → (∀ a ∈ u, 1 ≤ a) →
    u.sum = (C ++ [x0, y0]).sum →
    List.Lex (· < ·) (C ++ [x0, y0]) u →
    u = C ++ (List.replicate ((y0 - 1) / (x0 + 1)) (x0 + 1) ++
        [(x0 + 1) + (y0 - 1) % (x0 + 1)]) ∨
      List.Lex (· < ·)
        (C ++ (List.replicate ((y0 - 1) / (x0 + 1)) (x0 + 1) ++
          [(x0 + 1) + (y0 - 1) % (x0 + 1)])) u := by
  intro C
  induction C with
  | nil =>
    intro u hch hpos hsum hlex
    simp only [List.nil_append] at hsum hlex ⊢
    cases hlex with
    | rel hlt =>
      rename_i d w
      have hmem : ∀ a ∈ d :: w, x0 + 1 ≤ a := by
        intro a ha
        rcases List.mem_cons.mp ha with rfl | ha
        · omega
        · have := @chain_rel_of_head ℕ (· ≤ ·)
            (fun a b c hab hbc => le_trans hab hbc) w d hch a ha
          omega
      have hsum' : (d :: w).sum = (x0 + 1) + (y0 - 1) := by
        simp only [List.sum_cons, List.sum_nil] at hsum ⊢
        omega
      exact minAsc (x0 + 1) (by omega) (d :: w) (y0 - 1) hch hmem hsum'
    | cons hl =>
      rename_i w
      exfalso
      cases hl with
      | rel hlt =>
        rename_i e w'
        simp only [List.sum_cons, List.sum_nil] at hsum
        omega
      | cons hl2 =>
        rename_i w'
        cases hl2 with
        | nil =>
          rename_i c w2
          have hc : 1 ≤ c := hpos c (by simp)
          simp only [List.sum_cons, List.sum_nil] at hsum
          omega
  | cons c C' ih =>
    intro u hch hpos hsum hlex
    simp only [List.cons_append] at hsum hlex ⊢
    cases hlex with
    | rel hlt =>
      rename_i d w
      right
      exact List.Lex.rel hlt
    | cons hl =>
      rename_i w
      have hch' : w.Chain' (· ≤ ·) := hch.tail
      have hpos' : ∀ a ∈ w, 1 ≤ a := fun a ha => hpos a (List.mem_cons_of_mem _ ha)
      have hsum' : w.sum = (C' ++ [x0, y0]).sum := by
        simp only [List.sum_cons] at hsum
        omega
      rcases ih w hch' hpos' hsum' hl with h | h
      · left
        rw [h]
      · right
        exact List.Lex.cons h


/-- Reversing a stack with two top entries exposes them on the right. -/
theorem reverse_cons_cons (y0 x0 : ℕ) (rest : List ℕ) :
    (y0 :: x0 :: rest).reverse = rest.reverse ++ [x0, y0] := by
  simp

/-- The ascending form of the successor state. -/
theorem stepOnce_reverse (y0 x0 : ℕ) (rest : List ℕ) :
    (stepOnce (y0 :: x0 :: rest)).reverse =
      rest.reverse ++ (List.replicate ((y0 - 1) / (x0 + 1)) (x0 + 1) ++
        [(x0 + 1) + (y0 - 1) % (x0 + 1)]) := by
  rw [stepOnce_closed]
  simp [List.reverse_append, List.reverse_replicate, List.append_assoc]

/-- Unfolding lemma for the outer loop. -/
theorem emitLoop_succ (f : ℕ) (s : List ℕ) :
    emitLoop (f + 1) s =
      if 2 ≤ s.length then stepOnce s :: emitLoop f (stepOnce s) else [] := rfl

/-- Each outer-loop step strictly increases the state in emission order. -/
theorem stepOnce_ascLt (s : List ℕ) (hlen : 2 ≤ s.length) : ascLt s (stepOnce s) := by
  match s, hlen with
  | y0 :: x0 :: rest, _ =>
    unfold ascLt
    rw [stepOnce_reverse, reverse_cons_cons]
    apply List.Lex.append_left
    rcases Nat.eq_zero_or_pos ((y0 - 1) / (x0 + 1)) with hq | hq
    · rw [hq, List.replicate_zero, List.nil_append]
      exact List.Lex.rel (by omega)
    · obtain ⟨q', hq'⟩ : ∃ q', (y0 - 1) / (x0 + 1) = q' + 1 :=
        ⟨_, (Nat.succ_pred_eq_of_pos hq).symm⟩
      rw [hq', List.replicate_succ, List.cons_append]
      exact List.Lex.rel (by omega)

/-- The successor state is the least good stack strictly above the current
state in emission order. -/
theorem stepOnce_min (n : ℕ) (s t : List ℕ) (hgs : GoodStack n s)
    (hlen : 2 ≤ s.length) (hgt : GoodStack n t) (hst : ascLt s t) :
    t = stepOnce s ∨ ascLt (stepOnce s) t := by
  match s, hlen with
  | y0 :: x0 :: rest, _ =>
    obtain ⟨-, -, hgs_pos, hgs_sum⟩ := hgs
    obtain ⟨-, hgt_ch, hgt_pos, hgt_sum⟩ := hgt
    have hy : 1 ≤ y0 := hgs_pos y0 (by simp)
    have hchu : t.reverse.Chain' (· ≤ ·) := by
      rw [List.chain'_reverse]
      exact hgt_ch
    have hposu : ∀ a ∈ t.reverse, 1 ≤ a := fun a ha => hgt_pos a (List.mem_reverse.mp ha)
    have hsumu : t.reverse.sum = (rest.reverse ++ [x0, y0]).sum := by
      rw [← reverse_cons_cons y0 x0 rest]
      simp only [List.sum_reverse]
      rw [hgt_sum, hgs_sum]
    have hlexu : List.Lex (· < ·) (rest.reverse ++ [x0, y0]) t.reverse := by
      have h := hst
      unfold ascLt at h
      rw [reverse_cons_cons] at h
      exact h
    rcases step_min_aux x0 y0 hy rest.reverse t.reverse hchu hposu hsumu hlexu with h | h
    · left
      apply List.reverse_injective
      rw [h, ← stepOnce_reverse]
    · right
      unfold ascLt
      rw [stepOnce_reverse]
      exact h

/-- The outer loop, run from a good state with fuel equal to the number of
strictly greater good stacks, emits exactly their sorted list. -/
theorem emitExact (n : ℕ) :
    ∀ (M : List (List ℕ)) (s : List ℕ), GoodStack n s →
    (s :: M).Chain' ascLt →
    (∀ t, GoodStack n t → ascLt s t → t ∈ M) →
    (∀ t ∈ M, GoodStack n t) →
    emitLoop M.length s = M := by
  intro M
  induction M with
  | nil => intro s _ _ _ _; rfl
  | cons t M' ih =>
    intro s hgs hch hcomp hgood
    have hst : ascLt s t := (List.chain'_cons.mp hch).1
    have hchM : (t :: M').Chain' ascLt := (List.chain'_cons.mp hch).2
    have hgt : GoodStack n t := hgood t (by simp)
    have hlen : 2 ≤ s.length := by
      by_contra hl
      push_neg at hl
      have hs : s = [n] := good_short n s hgs hl
      rw [hs] at hst
      exact good_not_ascLt_single n t hgt hst
    have hsg : GoodStack n (stepOnce s) := stepOnce_good n s hgs hlen
    have hslt : ascLt s (stepOnce s) := stepOnce_ascLt s hlen
    have hmem : stepOnce s ∈ t :: M' := hcomp _ hsg hslt
    have ht : t = stepOnce s := by
      rcases stepOnce_min n s t hgs hlen hgt hst with h | h
      · exact h
      · exfalso
        rcases List.mem_cons.mp hmem with he | hm
        · rw [he] at h
          exact ascLt_irrefl t h
        · have h2 : ascLt t (stepOnce s) :=
            @chain_rel_of_head (List ℕ) ascLt
              (fun a b c h1 h2 => ascLt_trans h1 h2) M' t hchM _ hm
          exact ascLt_irrefl t (ascLt_trans h2 h)
    subst ht
    simp only [List.length_cons]
    rw [emitLoop_succ, if_pos hlen]
    congr 1
    apply ih (stepOnce s) hsg hchM
    · intro u hgu hu
      have hmu : u ∈ stepOnce s :: M' := hcomp u hgu (ascLt_trans hslt hu)
      rcases List.mem_cons.mp hmu with he | hm
      · exfalso
        rw [he] at hu
        exact ascLt_irrefl _ hu
      · exact hm
    · intro u hu
      exact hgood u (List.mem_cons_of_mem _ hu)


/-! ### Properties of the reference enumeration `AP` -/

/-- Unfolding lemma for `AP` at fuel zero. -/
theorem AP_zero (n m : ℕ) : AP 0 n m = if n = 0 then [[]] else [] := rfl

/-- Unfolding lemma for `AP` at successor fuel. -/
theorem AP_succ (f n m : ℕ) :
    AP (f + 1) n m =
      if n = 0 then [[]]
      else if n < m then []
      else (AP f (n - m) m).map (fun v => m :: v) ++ AP f n (m + 1) := rfl

/-- Soundness: every list produced by `AP f n m` is an ascending list of parts
`≥ m` summing to `n`. -/
theorem AP_sound (f : ℕ) : ∀ (n m : ℕ) (v : List ℕ), v ∈ AP f n m →
    v.Chain' (· ≤ ·) ∧ (∀ a ∈ v, m ≤ a) ∧ v.sum = n := by
  induction f with
  | zero =>
    intro n m v hv
    rw [AP_zero] at hv
    by_cases hn : n = 0
    · rw [if_pos hn] at hv
      simp only [List.mem_singleton] at hv
      subst hv hn
      simp
    · rw [if_neg hn] at hv
      simp at hv
  | succ f ih =>
    intro n m v hv
    rw [AP_succ] at hv
    by_cases hn : n = 0
    · rw [if_pos hn] at hv
      simp only [List.mem_singleton] at hv
      subst hv hn
      simp
    · rw [if_neg hn] at hv
      by_cases hm : n < m
      · rw [if_pos hm] at hv
        simp at hv
      · rw [if_neg hm] at hv
        rcases List.mem_append.mp hv with h | h
        · obtain ⟨w, hw, rfl⟩ := List.mem_map.mp h
          obtain ⟨hch, hmem, hsum⟩ := ih (n - m) m w hw
          refine ⟨?_, ?_, ?_⟩
          · rw [List.chain'_cons']
            exact ⟨fun b hb => hmem _ (List.mem_of_mem_head? hb), hch⟩
          · intro a ha
            rcases List.mem_cons.mp ha with rfl | ha
            · exact le_refl a
            · exact hmem a ha
          · rw [List.sum_cons, hsum]
            omega
        · obtain ⟨hch, hmem, hsum⟩ := ih n (m + 1) v h
          exact ⟨hch, fun a ha => le_trans (Nat.le_succ m) (hmem a ha), hsum⟩

/-- Completeness: with enough fuel, every ascending list of parts `≥ m`
summing to `n` appears in `AP f n m`. -/
theorem AP_complete (f : ℕ) : ∀ (n m : ℕ) (v : List ℕ), 1 ≤ m → 2 * n + 1 ≤ f + m →
    v.Chain' (· ≤ ·) → (∀ a ∈ v, m ≤ a) → v.sum = n → v ∈ AP f n m := by
  induction f with
  | zero =>
    intro n m v hm hf hch hmem hsum
    rw [AP_zero]
    cases v with
    | nil =>
      simp only [List.sum_nil] at hsum
      rw [if_pos hsum.symm]
      simp
    | cons a w =>
      exfalso
      have ha := hmem a (by simp)
      have h1 : a ≤ (a :: w).sum :=
        List.single_le_sum (fun x _ => Nat.zero_le x) a (by simp)
      rw [hsum] at h1
      omega
  | succ f ih =>
    intro n m v hm hf hch hmem hsum
    rw [AP_succ]
    by_cases hn : n = 0
    · rw [if_pos hn]
      cases v with
      | nil => simp
      | cons a w =>
        exfalso
        have ha := hmem a (by simp)
        have h1 : a ≤ (a :: w).sum :=
          List.single_le_sum (fun x _ => Nat.zero_le x) a (by simp)
        rw [hsum] at h1
        omega
    · rw [if_neg hn]
      cases v with
      | nil =>
        exfalso
        simp only [List.sum_nil] at hsum
        exact hn hsum.symm
      | cons a w =>
        have ha : m ≤ a := hmem a (by simp)
        have hwge : ∀ b ∈ w, a ≤ b :=
          @chain_rel_of_head ℕ (· ≤ ·) (fun a b c h1 h2 => le_trans h1 h2) w a hch
        have hle : ¬ n < m := by
          intro h
          have h1 : a ≤ (a :: w).sum :=
            List.single_le_sum (fun x _ => Nat.zero_le x) a (by simp)
          rw [hsum] at h1
          omega
        rw [if_neg hle]
        apply List.mem_append.mpr
        rcases eq_or_lt_of_le ha with he | hlt
        · left
          apply List.mem_map.mpr
          refine ⟨w, ?_, by rw [he]⟩
          have hsum' : w.sum = n - m := by
            simp only [List.sum_cons] at hsum
            omega
          exact ih (n - m) m w hm (by omega) hch.tail
            (fun b hb => by have := hwge b hb; omega) hsum'
        · right
          apply ih n (m + 1) (a :: w) (by omega) (by omega) hch ?_ hsum
          intro b hb
          rcases List.mem_cons.mp hb with rfl | hb
          · omega
          · have := hwge b hb
            omega

/-- Sortedness: `AP f n m` is strictly increasing in lexicographic order. -/
theorem AP_chain (f : ℕ) : ∀ (n m : ℕ), 1 ≤ m →
    (AP f n m).Chain' (List.Lex (· < ·)) := by
  induction f with
  | zero =>
    intro n m hm
    rw [AP_zero]
    split
    · simp
    · simp
  | succ f ih =>
    intro n m hm
    rw [AP_succ]
    by_cases hn : n = 0
    · rw [if_pos hn]
      simp
    · rw [if_neg hn]
      by_cases hnm : n < m
      · rw [if_pos hnm]
        simp
      · rw [if_neg hnm]
        rw [List.chain'_append]
        refine ⟨?_, ih n (m + 1) (by omega), ?_⟩
        · rw [List.chain'_map]
          exact (ih (n - m) m hm).imp (fun a b h => List.Lex.cons h)
        · intro x hx y hy
          have hxm : x ∈ (AP f (n - m) m).map (fun v => m :: v) :=
            List.mem_of_mem_getLast? hx
          obtain ⟨x', -, rfl⟩ := List.mem_map.mp hxm
          have hym : y ∈ AP f n (m + 1) := List.mem_of_mem_head? hy
          obtain ⟨-, hymem, hysum⟩ := AP_sound f n (m + 1) y hym
          cases y with
          | nil =>
            exfalso
            simp only [List.sum_nil] at hysum
            exact hn hysum.symm
          | cons b y' =>
            have hb : m + 1 ≤ b := hymem b (by simp)
            exact List.Lex.rel (by omega)

/-- The first entry of `AP f n 1` is the all-ones partition. -/
theorem AP_head (f : ℕ) : ∀ n, 2 * n + 1 ≤ f + 1 →
    (AP f n 1).head? = some (List.replicate n 1) := by
  induction f with
  | zero =>
    intro n hf
    have hn : n = 0 := by omega
    subst hn
    rw [AP_zero]
    simp
  | succ f ih =>
    intro n hf
    by_cases hn : n = 0
    · subst hn
      rw [AP_succ]
      simp
    · rw [AP_succ, if_neg hn, if_neg (by omega)]
      have hx := ih (n - 1) (by omega)
      have hcons := List.cons_head?_tail hx
      rw [← hcons]
      simp only [List.map_cons, List.cons_append, List.head?_cons]
      congr 1
      rw [← List.replicate_succ]
      congr 1
      omega


/-- The count table evaluates the empty-sum base case. -/
theorem cTab_zero (m : ℕ) : cTab 0 m = 1 := rfl

/-- The count table is zero when no part fits. -/
theorem cTab_of_lt (n m : ℕ) (hn : n ≠ 0) (h : n < m) : cTab n m = 0 := by
  unfold cTab
  rw [if_neg hn, if_pos h]

set_option maxRecDepth 10000 in
set_option maxHeartbeats 4000000 in
/-- The literal count table satisfies the standard partition-count recurrence
`c(n, m) = c(n - m, m) + c(n, m + 1)` on the whole range used by the program. -/
theorem cTab_rec : ∀ n < 51, ∀ m < 51, 1 ≤ n → 1 ≤ m → m ≤ n →
    cTab n m = cTab (n - m) m + cTab n (m + 1) := by decide

set_option maxRecDepth 10000 in
set_option maxHeartbeats 4000000 in
/-- The first column of the count table is the `N_PARTITIONS` table. -/
theorem cTab_nPartitions : ∀ n < 51, 1 ≤ n → cTab n 1 = nPartitions n := by decide

/-- With enough fuel, `AP f n m` has exactly `c(n, m)` entries. -/
theorem AP_len (f : ℕ) : ∀ n m, n ≤ 50 → 1 ≤ m → 2 * n + 1 ≤ f + m →
    (AP f n m).length = cTab n m := by
  induction f with
  | zero =>
    intro n m h50 hm hf
    rw [AP_zero]
    by_cases hn : n = 0
    · rw [if_pos hn, hn, cTab_zero]
      rfl
    · rw [if_neg hn, cTab_of_lt n m hn (by omega)]
      rfl
  | succ f ih =>
    intro n m h50 hm hf
    rw [AP_succ]
    by_cases hn : n = 0
    · rw [if_pos hn, hn, cTab_zero]
      rfl
    · rw [if_neg hn]
      by_cases hnm : n < m
      · rw [if_pos hnm, cTab_of_lt n m hn hnm]
        rfl
      · rw [if_neg hnm]
        rw [List.length_append, List.length_map]
        rw [ih (n - m) m (by omega) hm (by omega), ih n (m + 1) h50 (by omega) (by omega)]
        exact (cTab_rec n (by omega) m (by omega) (by omega) (by omega) (by omega)).symm


/-- Every entry of the reversed enumeration is a good stack. -/
theorem AP_member_good (n f : ℕ) (hn : 1 ≤ n) (t : List ℕ)
    (ht : t ∈ (AP f n 1).map List.reverse) : GoodStack n t := by
  obtain ⟨v, hv, rfl⟩ := List.mem_map.mp ht
  obtain ⟨hch, hmem, hsum⟩ := AP_sound f n 1 v hv
  refine ⟨?_, ?_, ?_, ?_⟩
  · intro h
    have hv0 : v = [] := by
      cases v with
      | nil => rfl
      | cons a w => simp at h
    rw [hv0] at hsum
    simp only [List.sum_nil] at hsum
    omega
  · rw [List.chain'_reverse]
    exact hch
  · intro a ha
    exact hmem a (List.mem_reverse.mp ha)
  · rw [List.sum_reverse]
    exact hsum

/-- Every good stack appears in the reversed enumeration. -/
theorem good_mem_AP (n : ℕ) (t : List ℕ) (hg : GoodStack n t) :
    t ∈ (AP (2 * n + 1) n 1).map List.reverse := by
  obtain ⟨-, hch, hpos, hsum⟩ := hg
  apply List.mem_map.mpr
  refine ⟨t.reverse, ?_, List.reverse_reverse t⟩
  apply AP_complete (2 * n + 1) n 1 t.reverse (le_refl 1) (by omega) ?_ ?_ ?_
  · rw [List.chain'_reverse]
    exact hch
  · intro a ha
    exact hpos a (List.mem_reverse.mp ha)
  · rw [List.sum_reverse]
    exact hsum

/-- Key equation: run with fuel `N_PARTITIONS[n]` from the initial stack
`[n, 0]`, the Kelleher loop emits exactly the lexicographically sorted list of
all partitions of `n` (as descending stacks). -/
theorem emit_eq_AP (n : ℕ) (hn : 1 ≤ n) (h50 : n ≤ 50) :
    emitLoop (nPartitions n) [n, 0] = (AP (2 * n + 1) n 1).map List.reverse := by
  set L := (AP (2 * n + 1) n 1).map List.reverse with hL
  have hlen : L.length = nPartitions n := by
    rw [hL, List.length_map, AP_len (2 * n + 1) n 1 h50 (le_refl 1) (by omega)]
    exact cTab_nPartitions n (by omega) hn
  have hhead : (AP (2 * n + 1) n 1).head? = some (List.replicate n 1) :=
    AP_head (2 * n + 1) n (by omega)
  have hheadL : L.head? = some (List.replicate n 1) := by
    rw [hL, List.head?_map, hhead]
    simp [List.reverse_replicate]
  have hLcons : List.replicate n 1 :: L.tail = L := List.cons_head?_tail hheadL
  have hlen' : L.length = L.tail.length + 1 := by
    rw [← hLcons]
    simp
  have hNp : nPartitions n = L.tail.length + 1 := by
    rw [← hlen]
    exact hlen'
  have hstep : stepOnce [n, 0] = List.replicate n 1 := by
    have h1 : stepOnce [n, 0] = innerLoop n (0 + 1) (n - 1) [] := rfl
    rw [h1, innerLoop_exact n (0 + 1) (n - 1) [] (by omega) (by omega)]
    have h2 : (n - 1) % (0 + 1) = 0 := by omega
    have h3 : (n - 1) / (0 + 1) = n - 1 := by omega
    rw [h2, h3]
    simp only [Nat.zero_add, Nat.add_zero, List.append_nil]
    rw [← List.replicate_succ]
    have h4 : n - 1 + 1 = n := by omega
    rw [h4]
  rw [hNp, emitLoop_succ, if_pos (by simp), hstep]
  rw [← hLcons]
  congr 1
  apply emitExact n L.tail (List.replicate n 1) ?_ ?_ ?_ ?_
  · refine ⟨?_, chain_ge_replicate 1 n, ?_, ?_⟩
    · exact List.ne_nil_of_length_pos (by rw [List.length_replicate]; omega)
    · intro a ha
      have := List.eq_of_mem_replicate ha
      omega
    · simp [List.sum_replicate]
  · rw [hLcons, hL, List.chain'_map]
    apply List.Chain'.imp ?_ (AP_chain (2 * n + 1) n 1 (le_refl 1))
    intro a b h
    unfold ascLt
    rw [List.reverse_reverse, List.reverse_reverse]
    exact h
  · intro t hgt hlt
    have htL : t ∈ L := by
      rw [hL]
      exact good_mem_AP n t hgt
    rw [← hLcons] at htL
    rcases List.mem_cons.mp htL with he | hm
    · exfalso
      rw [he] at hlt
      exact ascLt_irrefl _ hlt
    · exact hm
  · intro t ht
    apply AP_member_good n (2 * n + 1) hn t
    rw [← hL]
    exact List.mem_of_mem_tail ht


/-- For `1 ≤ n ≤ 50` the emitted list fills the matrix exactly: `partitions n`
is the reversed sorted enumeration, padded to width `n`. -/
theorem partitions_eq (n : ℕ) (hn : 1 ≤ n) (h50 : n ≤ 50) :
    partitions n = ((AP (2 * n + 1) n 1).map List.reverse).reverse.map (padRow n) := by
  have hlen2 : ((AP (2 * n + 1) n 1).map List.reverse).length = nPartitions n := by
    rw [List.length_map, AP_len (2 * n + 1) n 1 h50 (le_refl 1) (by omega)]
    exact cTab_nPartitions n (by omega) hn
  have h0 : partitions n =
      List.replicate (nPartitions n - (emitLoop (nPartitions n) [n, 0]).length)
          (List.replicate n 0) ++
        (emitLoop (nPartitions n) [n, 0]).reverse.map (padRow n) := by
    unfold partitions
    rw [if_neg (by omega)]
  rw [h0, emit_eq_AP n hn h50, hlen2, Nat.sub_self, List.replicate_zero, List.nil_append]

/-- Every row of `partitions n` is the padding of a good stack. -/
theorem partitions_row (n : ℕ) (hn : 1 ≤ n) (h50 : n ≤ 50) (row : List ℕ)
    (hrow : row ∈ partitions n) :
    ∃ e, GoodStack n e ∧ e.length ≤ n ∧ row = padRow n e := by
  rw [partitions_eq n hn h50] at hrow
  obtain ⟨e, he, rfl⟩ := List.mem_map.mp hrow
  have he' : e ∈ (AP (2 * n + 1) n 1).map List.reverse := List.mem_reverse.mp he
  have hg := AP_member_good n (2 * n + 1) hn e he'
  refine ⟨e, hg, ?_, rfl⟩
  obtain ⟨-, -, hpos, hsum⟩ := hg
  have hl := length_le_sum_of_pos e hpos
  rw [hsum] at hl
  exact hl

/-- Zero padding preserves width, monotonicity and the sum. -/
theorem padRow_spec (n : ℕ) (e : List ℕ) (hg : GoodStack n e) (hlen : e.length ≤ n) :
    (padRow n e).length = n ∧ (padRow n e).Chain' (· ≥ ·) ∧ (padRow n e).sum = n := by
  obtain ⟨-, hch, hpos, hsum⟩ := hg
  unfold padRow
  refine ⟨?_, ?_, ?_⟩
  · rw [List.length_append, List.length_replicate]
    omega
  · rw [List.chain'_append]
    refine ⟨hch, chain_ge_replicate 0 _, ?_⟩
    intro x hx y hy
    have hy0 := List.eq_of_mem_replicate (List.mem_of_mem_head? hy)
    omega
  · rw [List.sum_append, List.sum_replicate]
    simp [hsum]

/-- Conversely, every partition of `n` (as a descending stack) padded to width
`n` is a row of `partitions n`. -/
theorem partitions_complete (n : ℕ) (hn : 1 ≤ n) (h50 : n ≤ 50) (e : List ℕ)
    (hg : GoodStack n e) : padRow n e ∈ partitions n := by
  rw [partitions_eq n hn h50]
  apply List.mem_map.mpr
  refine ⟨e, ?_, rfl⟩
  rw [List.mem_reverse]
  exact good_mem_AP n e hg

/-- C1: for every `n` in `1..=50`, `partitions n` is a matrix with exactly
`N_PARTITIONS[n]` rows and `n` columns in which every row is nonincreasing,
sums to `n`, and consists of the positive parts of a partition of `n` followed
by zero padding on the right. -/
theorem partitions_spec (n : ℕ) (hn : 1 ≤ n) (h50 : n ≤ 50) :
    (partitions n).length = nPartitions n ∧
    ∀ row ∈ partitions n, row.length = n ∧ row.Chain' (· ≥ ·) ∧ row.sum = n ∧
      ∃ e, (∀ a ∈ e, 1 ≤ a) ∧ row = e ++ List.replicate (n - e.length) 0 := by
  constructor
  · rw [partitions_eq n hn h50, List.length_map, List.length_reverse, List.length_map,
      AP_len (2 * n + 1) n 1 h50 (le_refl 1) (by omega)]
    exact cTab_nPartitions n (by omega) hn
  · intro row hrow
    obtain ⟨e, hg, hlen, rfl⟩ := partitions_row n hn h50 row hrow
    obtain ⟨h1, h2, h3⟩ := padRow_spec n e hg hlen
    obtain ⟨-, -, hpos, -⟩ := hg
    exact ⟨h1, h2, h3, e, hpos, rfl⟩

/-- Witness for C1 at `n = 3`: the matrix is `[[3,0,0],[2,1,0],[1,1,1]]` and the
claimed properties hold for it. -/
theorem partitions_spec_witness :
    partitions 3 = [[3, 0, 0], [2, 1, 0], [1, 1, 1]] ∧
    ((partitions 3).length = nPartitions 3 ∧
      ∀ row ∈ partitions 3, row.length = 3 ∧ row.Chain' (· ≥ ·) ∧ row.sum = 3 ∧
        ∃ e, (∀ a ∈ e, 1 ≤ a) ∧ row = e ++ List.replicate (3 - e.length) 0) :=
  ⟨by decide, partitions_spec 3 (by decide) (by decide)⟩


/-! ### C3: invariants of the genotype stored on success -/

/-- `most_likely_gt_idx` restated through `errSums`. -/
theorem mostLikelyGtIdx_eq (P : List (List ℚ)) (nR cn : ℕ) (obs : List ℚ) :
    mostLikelyGtIdx P nR cn obs =
      match (errSums P nR cn obs).min? with
      | none => .error "no most likely allele distribution was found"
      | some m =>
        match ((errSums P nR cn obs).enum.filter
            (fun p => |p.2 - m| < f32Epsilon)).map (·.1) with
        | [] => .error "no most likely allele distribution was found"
        | [i] => .ok i
        | _ => .error "multiple allele distributions are equally likely" := rfl

/-- The error sums list is as long as the candidate matrix. -/
theorem errSums_length (P : List (List ℚ)) (nR cn : ℕ) (obs : List ℚ) :
    (errSums P nR cn obs).length = P.length := by
  unfold errSums
  exact List.length_map _ _

/-- Entry `i` of the error sums list is the distance of row `i`. -/
theorem errSums_getD (P : List (List ℚ)) (nR cn : ℕ) (obs : List ℚ) (i : ℕ)
    (hi : i < P.length) :
    (errSums P nR cn obs).getD i 0 =
      (((P.getD i []).zip (obs.take cn)).map
        (fun p => |p.1 * ((nR : ℚ) / (cn : ℚ)) - p.2|)).sum := by
  unfold errSums
  rw [List.getD_eq_getElem _ _ (by simpa using hi), List.getElem_map,
    List.getD_eq_getElem _ _ hi]

/-- Inversion of a successful `most_likely_gt_idx`: the returned index is in
range, its error is within `f32::EPSILON` of the minimum, and it is the only
such index. -/
theorem gtIdx_ok_spec (P : List (List ℚ)) (nR cn i : ℕ) (obs : List ℚ)
    (h : mostLikelyGtIdx P nR cn obs = .ok i) :
    ∃ m, (errSums P nR cn obs).min? = some m ∧
      i < P.length ∧
      |(errSums P nR cn obs).getD i 0 - m| < f32Epsilon ∧
      ∀ i', i' < P.length → i' ≠ i →
        ¬ |(errSums P nR cn obs).getD i' 0 - m| < f32Epsilon := by
  rw [mostLikelyGtIdx_eq] at h
  rcases hmin : (errSums P nR cn obs).min? with _ | m
  · rw [hmin] at h
    simp at h
  · rw [hmin] at h
    dsimp only at h
    rcases hfl : ((errSums P nR cn obs).enum.filter
        (fun p => |p.2 - m| < f32Epsilon)) with _ | ⟨p, rest⟩
    · rw [hfl] at h
      simp at h
    · rcases rest with _ | ⟨q, rest2⟩
      · rw [hfl] at h
        simp only [List.map_cons, List.map_nil] at h
        have hpi : p.1 = i := by
          simpa using h
        have hp : p ∈ (errSums P nR cn obs).enum.filter
            (fun p => |p.2 - m| < f32Epsilon) := by
          rw [hfl]
          exact List.mem_cons_self p []
        obtain ⟨hpe, hppred⟩ := List.mem_filter.mp hp
        rw [List.mem_enum_iff_getElem?, List.getElem?_eq_some] at hpe
        obtain ⟨hplt, hpv⟩ := hpe
        have hlen : (errSums P nR cn obs).length = P.length :=
          errSums_length P nR cn obs
        refine ⟨m, rfl, ?_, ?_, ?_⟩
        · rw [← hpi, ← hlen]
          exact hplt
        · have hgd : (errSums P nR cn obs).getD i 0 = p.2 := by
            rw [← hpi, List.getD_eq_getElem _ _ hplt, hpv]
          rw [hgd]
          exact of_decide_eq_true hppred
        · intro i' hi' hne hlt'
          have hi'e : i' < (errSums P nR cn obs).length := by
            rw [hlen]
            exact hi'
          have henum : (i', (errSums P nR cn obs)[i']) ∈
              (errSums P nR cn obs).enum := by
            rw [List.mem_enum_iff_getElem?]
            exact List.getElem?_eq_some.mpr ⟨hi'e, rfl⟩
          have hmemf : (i', (errSums P nR cn obs)[i']) ∈
              (errSums P nR cn obs).enum.filter
                (fun p => |p.2 - m| < f32Epsilon) := by
            apply List.mem_filter.mpr
            refine ⟨henum, ?_⟩
            apply decide_eq_true
            rw [List.getD_eq_getElem _ _ hi'e] at hlt'
            exact hlt'
          rw [hfl] at hmemf
          have hip : i' = p.1 := congrArg Prod.fst (List.mem_singleton.mp hmemf)
          exact hne (by rw [hip, hpi])
      · rw [hfl] at h
        simp at h

/-- A row zipped against a zero tail contributes its scaled sum. -/
theorem err_zip_zeros (E : ℚ) (hE : 0 ≤ E) : ∀ (l : List ℕ),
    (((l.map (fun (a : ℕ) => (a : ℚ))).zip (List.replicate l.length (0 : ℚ))).map
      (fun p => |p.1 * E - p.2|)).sum = ((l.sum : ℕ) : ℚ) * E := by
  intro l
  induction l with
  | nil => simp
  | cons a l ih =>
    simp only [List.map_cons, List.length_cons, List.replicate_succ,
      List.zip_cons_cons, List.sum_cons]
    rw [ih]
    have habs : |(a : ℚ) * E - 0| = (a : ℚ) * E := by
      rw [sub_zero]
      exact abs_of_nonneg (mul_nonneg (by positivity) hE)
    rw [habs]
    push_cast
    ring

/-- Summing the multiplicities kept by the positivity filter of the genotype
construction recovers the sum of the zipped prefix of the partition row. -/
theorem zip_filter_sum : ∀ (al : List ℤ) (r0 : List ℕ),
    ((((al.zip (r0.map (fun (a : ℕ) => (a : ℚ))))).filter (fun p => 0 < p.2)).map
      (fun p => p.2)).sum = (((r0.take al.length).sum : ℕ) : ℚ) := by
  intro al
  induction al with
  | nil =>
    intro r0
    simp
  | cons a al ih =>
    intro r0
    cases r0 with
    | nil => simp
    | cons b r0' =>
      simp only [List.map_cons, List.zip_cons_cons, List.length_cons,
        List.take_succ_cons, List.sum_cons]
      by_cases hb : 0 < ((b : ℕ) : ℚ)
      · rw [List.filter_cons_of_pos (by simpa using hb)]
        simp only [List.map_cons, List.sum_cons]
        rw [ih]
        push_cast
        ring
      · rw [List.filter_cons_of_neg (by simpa using hb)]
        have hb0 : b = 0 := by
          by_contra hb'
          exact hb (by positivity)
        rw [ih, hb0]
        push_cast
        ring

/-- `getD` commutes with the row cast of the partitions matrix. -/
theorem getD_map_rows (l : List (List ℕ)) (i : ℕ) (hi : i < l.length) :
    (l.map (fun (r : List ℕ) => r.map (fun (a : ℕ) => (a : ℚ)))).getD i [] =
      (l.getD i []).map (fun (a : ℕ) => (a : ℚ)) := by
  rw [List.getD_eq_getElem _ _ (by simpa using hi), List.getElem_map,
    List.getD_eq_getElem _ _ hi]


/-- Inversion of a successful `estimate_genotype` call: on `Ok` the copy number
is nonzero, a histogram is present, the partitions lookup succeeded, the
minimum-distance search returned a unique index, and the stored genotype is the
sorted positive zip of allele lengths with the chosen row. -/
theorem estimateGenotype_ok_inv (tr : TandemRepeat) (minD : ℚ) (maxD : Option ℚ)
    (pmap : ℕ → Option (List (List ℚ))) (tr' : TandemRepeat)
    (hok : estimateGenotype tr minD maxD pmap = (tr', true)) :
    ∃ hist possibleGts minIdx,
      tr.copyNumber ≠ 0 ∧
      tr.alleleLengths = some hist ∧
      pmap tr.copyNumber = some possibleGts ∧
      mostLikelyGtIdx possibleGts ((⌊(hist.map (fun p => p.2)).sum⌋).toNat)
        tr.copyNumber (obsDistrOf tr.copyNumber ((sortByFreq hist).map (·.2))) =
        .ok minIdx ∧
      tr'.genotype = some (sortByLen
        ((((sortByFreq hist).map (·.1)).zip (possibleGts.getD minIdx [])).filter
          (fun p => 0 < p.2))) := by
  by_cases hcn : tr.copyNumber = 0
  · rw [estimateGenotype, if_pos hcn] at hok
    simp at hok
  · rcases hh : tr.alleleLengths with _ | hist
    · rw [estimateGenotype, if_neg hcn, hh] at hok
      simp at hok
    · rw [estimateGenotype, if_neg hcn, hh] at hok
      dsimp only at hok
      by_cases h1 : (((⌊(hist.map (fun p => p.2)).sum⌋).toNat : ℚ) /
          (tr.copyNumber : ℚ)) < minD
      · rw [if_pos h1] at hok
        simp at hok
      · rw [if_neg h1] at hok
        by_cases h2 : aboveMax maxD (((⌊(hist.map (fun p => p.2)).sum⌋).toNat : ℚ) /
            (tr.copyNumber : ℚ)) = true
        · rw [if_pos h2] at hok
          simp at hok
        · rw [if_neg h2] at hok
          rcases hpm : pmap tr.copyNumber with _ | possibleGts
          · rw [hpm] at hok
            simp at hok
          · rw [hpm] at hok
            dsimp only at hok
            rcases hml : mostLikelyGtIdx possibleGts
                ((⌊(hist.map (fun p => p.2)).sum⌋).toNat) tr.copyNumber
                (obsDistrOf tr.copyNumber ((sortByFreq hist).map (·.2)))
              with e | minIdx
            · rw [hml] at hok
              simp at hok
            · rw [hml] at hok
              dsimp only at hok
              by_cases h3 : ((findPlateaus (obsDistrOf tr.copyNumber
                  ((sortByFreq hist).map (·.2)))).all
                  (fun p => sliceAllEqHead (possibleGts.getD minIdx []) p)) = true
              · rw [if_pos h3] at hok
                by_cases h4 : carryAmb
                    (obsCarry tr.copyNumber ((sortByFreq hist).map (·.2)))
                    ((((sortByFreq hist).map (·.1)).zip
                      (possibleGts.getD minIdx [])).filter
                      (fun p => 0 < p.2)).length
                    tr.copyNumber
                    ((obsDistrOf tr.copyNumber ((sortByFreq hist).map (·.2))).getD
                      (tr.copyNumber - 1) 0) = true
                · rw [if_pos h4] at hok
                  simp at hok
                · rw [if_neg h4] at hok
                  refine ⟨hist, possibleGts, minIdx, hcn, rfl, rfl, hml, ?_⟩
                  have h5 := congrArg Prod.fst hok
                  dsimp only at h5
                  rw [← h5]
              · rw [if_neg h3] at hok
                simp at hok


/-- On a successful minimum-distance search over the partitions matrix, the
chosen row carries all of its mass inside the first `obs0.length` positions:
otherwise moving the tail mass onto the first part would produce a second row
at distance no greater than the minimum, and the search would have reported a
tie instead of succeeding. -/
theorem ok_take_sum (cn : ℕ) (h1 : 1 ≤ cn) (h50 : cn ≤ 50) (nR : ℕ)
    (o0 : ℚ) (ot : List ℚ) (minIdx : ℕ)
    (hok : mostLikelyGtIdx ((partitions cn).map (fun (r : List ℕ) => r.map (fun (a : ℕ) => (a : ℚ)))) nR cn (obsDistrOf cn (o0 :: ot)) = .ok minIdx) :
    minIdx < (partitions cn).length ∧
    ((((partitions cn).getD minIdx []).take (ot.length + 1)).sum = cn) := by
  obtain ⟨m, hmin, hidx, hnear, huniq⟩ :=
    gtIdx_ok_spec _ nR cn minIdx (obsDistrOf cn (o0 :: ot)) hok
  have hPlen : ((partitions cn).map (fun (r : List ℕ) => r.map (fun (a : ℕ) => (a : ℚ)))).length = (partitions cn).length := List.length_map _ _
  have hidx' : minIdx < (partitions cn).length := by
    rw [hPlen] at hidx
    exact hidx
  refine ⟨hidx', ?_⟩
  have hrow0mem : (partitions cn).getD minIdx [] ∈ partitions cn := by
    rw [List.getD_eq_getElem _ _ hidx']
    exact List.getElem_mem hidx'
  obtain ⟨e, hge, helen, hrow0⟩ := partitions_row cn h1 h50 _ hrow0mem
  obtain ⟨hrl, hrch, hrsum⟩ := padRow_spec cn e hge helen
  obtain ⟨hene, hech, hepos, hesum⟩ := hge
  rcases Nat.lt_or_ge (ot.length + 1) cn with hjlt | hjge
  case inr =>
    rw [hrow0, List.take_all_of_le (by rw [hrl]; omega)]
    exact hrsum
  case inl =>
    have hsplit := List.sum_take_add_sum_drop (padRow cn e) (ot.length + 1)
    rw [hrow0]
    suffices hT0 : ((padRow cn e).drop (ot.length + 1)).sum = 0 by
      rw [hrsum, hT0] at hsplit
      omega
    by_contra hT
    have helgt : ot.length + 1 < e.length := by
      by_contra hle
      push_neg at hle
      apply hT
      have htk : (padRow cn e).take (ot.length + 1) =
          e ++ (List.replicate (cn - e.length) 0).take (ot.length + 1 - e.length) := by
        unfold padRow
        have hsp : ot.length + 1 = e.length + (ot.length + 1 - e.length) := by omega
        conv_lhs => rw [hsp, List.take_append]
      have htksum : ((padRow cn e).take (ot.length + 1)).sum = cn := by
        rw [htk, List.sum_append, List.take_replicate, List.sum_replicate, hesum]
        simp
      omega
    cases e with
    | nil => simp at helgt
    | cons e0 et =>
    simp only [List.length_cons] at helgt helen
    have hotlt : ot.length < et.length := by omega
    have het12 : et.take ot.length ++ et.drop ot.length = et := List.take_append_drop _ _
    have het1len : (et.take ot.length).length = ot.length := by
      rw [List.length_take]
      exact min_eq_left (by omega)
    have hrowdec : padRow cn (e0 :: et) =
        e0 :: (et.take ot.length ++ (et.drop ot.length ++ List.replicate (cn - (et.length + 1)) 0)) := by
      unfold padRow
      simp only [List.length_cons, List.cons_append]
      rw [← List.append_assoc, het12]
    have hobs : (obsDistrOf cn (o0 :: ot)) = o0 :: (ot ++ List.replicate (cn - (ot.length + 1)) 0) := by
      unfold obsDistrOf zeroPadIfShorter
      rw [if_pos (by simp; omega), if_pos (by simp; omega)]
      simp
    have hobslen : (obsDistrOf cn (o0 :: ot)).length = cn := by
      rw [hobs]
      simp
      omega
    have hobstake : (obsDistrOf cn (o0 :: ot)).take cn = (obsDistrOf cn (o0 :: ot)) :=
      List.take_all_of_le (by rw [hobslen])
    have hE : (0 : ℚ) ≤ ((nR : ℚ) / (cn : ℚ)) :=
      div_nonneg (Nat.cast_nonneg nR) (Nat.cast_nonneg cn)
    have hKlen : (et.drop ot.length ++ List.replicate (cn - (et.length + 1)) 0).length = cn - (ot.length + 1) := by
      rw [List.length_append, List.length_drop, List.length_replicate]
      omega
    have herr0 : (errSums ((partitions cn).map (fun (r : List ℕ) => r.map (fun (a : ℕ) => (a : ℚ)))) nR cn (obsDistrOf cn (o0 :: ot))).getD minIdx 0 =
        |(e0 : ℚ) * ((nR : ℚ) / (cn : ℚ)) - o0|
          + ((((et.take ot.length).map (fun (a : ℕ) => (a : ℚ))).zip ot).map
              (fun p => |p.1 * ((nR : ℚ) / (cn : ℚ)) - p.2|)).sum
          + (((et.drop ot.length ++ List.replicate (cn - (et.length + 1)) 0).sum : ℕ) : ℚ) * ((nR : ℚ) / (cn : ℚ)) := by
      have htail : ((((et.drop ot.length ++ List.replicate (cn - (et.length + 1)) 0).map (fun (a : ℕ) => (a : ℚ))).zip
          (List.replicate (cn - (ot.length + 1)) (0 : ℚ))).map
            (fun (p : ℚ × ℚ) => |p.1 * ((nR : ℚ) / (cn : ℚ)) - p.2|)).sum =
          (((et.drop ot.length ++ List.replicate (cn - (et.length + 1)) 0).sum : ℕ) : ℚ) * ((nR : ℚ) / (cn : ℚ)) := by
        rw [← hKlen]
        exact err_zip_zeros ((nR : ℚ) / (cn : ℚ)) hE (et.drop ot.length ++ List.replicate (cn - (et.length + 1)) 0)
      rw [errSums_getD _ nR cn _ minIdx (by rw [hPlen]; exact hidx')]
      rw [getD_map_rows _ minIdx hidx', hrow0, hrowdec, hobstake, hobs]
      simp only [List.map_cons]
      rw [List.map_append]
      rw [List.zip_cons_cons, List.zip_append (by rw [List.length_map, het1len])]
      simp only [List.map_cons, List.sum_cons]
      rw [List.map_append, List.sum_append]
      rw [htail]
      ring
    have hdroprow : (padRow cn (e0 :: et)).drop (ot.length + 1) =
        et.drop ot.length ++ List.replicate (cn - (et.length + 1)) 0 := by
      rw [hrowdec, List.drop_succ_cons,
        List.drop_append_of_le_length (by rw [het1len]),
        List.drop_eq_nil_of_le (by rw [het1len]), List.nil_append]
    have hTpos : (et.drop ot.length).sum ≠ 0 := by
      intro h0
      apply hT
      rw [hdroprow, List.sum_append, h0, List.sum_replicate]
      simp
    have hge' : GoodStack cn ((e0 + (et.drop ot.length).sum) :: et.take ot.length) := by
      have hallet : ∀ b ∈ et, b ≤ e0 :=
        @chain_rel_of_head ℕ (· ≥ ·) (fun a b c hab hbc => le_trans hbc hab) et e0 hech
      refine ⟨List.cons_ne_nil _ _, ?_, ?_, ?_⟩
      · rw [List.chain'_cons']
        constructor
        · intro b hb
          have hbt : b ∈ et := (List.take_sublist _ _).subset (List.mem_of_mem_head? hb)
          have := hallet b hbt
          omega
        · have hpet : et.Pairwise (· ≥ ·) := List.chain'_iff_pairwise.mp hech.tail
          exact List.chain'_iff_pairwise.mpr
            (List.Pairwise.sublist (List.take_sublist _ _) hpet)
      · intro a ha
        rcases List.mem_cons.mp ha with rfl | ha
        · have := hepos e0 (by simp)
          omega
        · exact hepos a (List.mem_cons_of_mem _ ((List.take_sublist _ _).subset ha))
      · simp only [List.sum_cons]
        have h12 : (et.take ot.length).sum + (et.drop ot.length).sum = et.sum :=
          List.sum_take_add_sum_drop et ot.length
        simp only [List.sum_cons] at hesum
        omega
    have hmem' : padRow cn ((e0 + (et.drop ot.length).sum) :: et.take ot.length) ∈ partitions cn :=
      partitions_complete cn h1 h50 _ hge'
    rw [List.mem_iff_getElem] at hmem'
    obtain ⟨i2, hi2, hgi2⟩ := hmem'
    have he'len : ((e0 + (et.drop ot.length).sum) :: et.take ot.length).length = ot.length + 1 := by
      simp [het1len]
    have hpad' : padRow cn ((e0 + (et.drop ot.length).sum) :: et.take ot.length) =
        (e0 + (et.drop ot.length).sum) :: (et.take ot.length ++ List.replicate (cn - (ot.length + 1)) 0) := by
      unfold padRow
      rw [he'len, List.cons_append]
    have hne2 : i2 ≠ minIdx := by
      intro heq
      subst heq
      have hre := hrow0
      rw [List.getD_eq_getElem _ _ hidx'] at hre
      have hrows : padRow cn ((e0 + (et.drop ot.length).sum) :: et.take ot.length) = padRow cn (e0 :: et) :=
        hgi2.symm.trans hre
      have hd := congrArg (fun l => (List.drop (ot.length + 1) l).sum) hrows
      dsimp only at hd
      rw [hdroprow] at hd
      rw [hpad', List.drop_succ_cons,
        List.drop_append_of_le_length (by rw [het1len]),
        List.drop_eq_nil_of_le (by rw [het1len]), List.nil_append] at hd
      rw [List.sum_replicate, List.sum_append, List.sum_replicate] at hd
      simp at hd
      exact hTpos hd.symm
    have herr1 : (errSums ((partitions cn).map (fun (r : List ℕ) => r.map (fun (a : ℕ) => (a : ℚ)))) nR cn (obsDistrOf cn (o0 :: ot))).getD i2 0 =
        |((e0 + (et.drop ot.length).sum : ℕ) : ℚ) * ((nR : ℚ) / (cn : ℚ)) - o0|
          + ((((et.take ot.length).map (fun (a : ℕ) => (a : ℚ))).zip ot).map
              (fun p => |p.1 * ((nR : ℚ) / (cn : ℚ)) - p.2|)).sum := by
      rw [errSums_getD _ nR cn _ i2 (by rw [hPlen]; exact hi2)]
      rw [getD_map_rows _ i2 hi2]
      rw [List.getD_eq_getElem _ _ hi2, hgi2, hpad', hobstake, hobs]
      simp only [List.map_cons]
      rw [List.map_append]
      rw [List.zip_cons_cons, List.zip_append (by rw [List.length_map, het1len])]
      simp only [List.map_cons, List.map_append, List.sum_cons, List.sum_append]
      rw [List.map_replicate, Nat.cast_zero, List.zip_replicate, min_self,
        List.map_replicate, List.sum_replicate]
      dsimp only
      simp
    have hcomp : (errSums ((partitions cn).map (fun (r : List ℕ) => r.map (fun (a : ℕ) => (a : ℚ)))) nR cn (obsDistrOf cn (o0 :: ot))).getD i2 0 ≤ (errSums ((partitions cn).map (fun (r : List ℕ) => r.map (fun (a : ℕ) => (a : ℚ)))) nR cn (obsDistrOf cn (o0 :: ot))).getD minIdx 0 := by
      rw [herr0, herr1]
      have hsum2 : (et.drop ot.length ++ List.replicate (cn - (et.length + 1)) 0).sum = (et.drop ot.length).sum := by
        rw [List.sum_append, List.sum_replicate]
        simp
      have heq2 : ((e0 + (et.drop ot.length).sum : ℕ) : ℚ) * ((nR : ℚ) / (cn : ℚ)) - o0 =
          ((e0 : ℚ) * ((nR : ℚ) / (cn : ℚ)) - o0) + ((et.drop ot.length).sum : ℚ) * ((nR : ℚ) / (cn : ℚ)) := by
        push_cast
        ring
      have habs2 : |((et.drop ot.length).sum : ℚ) * ((nR : ℚ) / (cn : ℚ))| = ((et.drop ot.length).sum : ℚ) * ((nR : ℚ) / (cn : ℚ)) :=
        abs_of_nonneg (mul_nonneg (Nat.cast_nonneg _) hE)
      have htri : |((e0 + (et.drop ot.length).sum : ℕ) : ℚ) * ((nR : ℚ) / (cn : ℚ)) - o0| ≤
          |(e0 : ℚ) * ((nR : ℚ) / (cn : ℚ)) - o0| + (((et.drop ot.length ++ List.replicate (cn - (et.length + 1)) 0).sum : ℕ) : ℚ) * ((nR : ℚ) / (cn : ℚ)) := by
        rw [hsum2, heq2]
        refine le_trans (abs_add _ _) ?_
        rw [habs2]
      linarith
    have hmemes : (errSums ((partitions cn).map (fun (r : List ℕ) => r.map (fun (a : ℕ) => (a : ℚ)))) nR cn (obsDistrOf cn (o0 :: ot))).getD i2 0 ∈ (errSums ((partitions cn).map (fun (r : List ℕ) => r.map (fun (a : ℕ) => (a : ℚ)))) nR cn (obsDistrOf cn (o0 :: ot))) := by
      rw [List.getD_eq_getElem _ _ (by rw [errSums_length, hPlen]; exact hi2)]
      exact List.getElem_mem _
    have hm2 : m ≤ (errSums ((partitions cn).map (fun (r : List ℕ) => r.map (fun (a : ℕ) => (a : ℚ)))) nR cn (obsDistrOf cn (o0 :: ot))).getD i2 0 :=
      (List.le_min?_iff (fun a b c => le_min_iff) hmin).mp (le_refl m) _ hmemes
    have hm1 : m ≤ (errSums ((partitions cn).map (fun (r : List ℕ) => r.map (fun (a : ℕ) => (a : ℚ)))) nR cn (obsDistrOf cn (o0 :: ot))).getD minIdx 0 := le_trans hm2 hcomp
    have hnear2 : |(errSums ((partitions cn).map (fun (r : List ℕ) => r.map (fun (a : ℕ) => (a : ℚ)))) nR cn (obsDistrOf cn (o0 :: ot))).getD i2 0 - m| < f32Epsilon := by
      rw [abs_of_nonneg (by linarith)]
      rw [abs_of_nonneg (by linarith)] at hnear
      linarith
    exact huniq i2 (by rw [hPlen]; exact hi2) hne2 hnear2


/-- C3: whenever `estimate_genotype` returns `Ok` for a locus (with the
partitions map produced by `make_partitions_map`, and a histogram that is
nonempty when present, as the extractor guarantees), the stored genotype is
`Some` list of `(allele_length, multiplicity)` pairs sorted ascending by allele
length, with every multiplicity positive and the multiplicities summing to the
locus's copy number. -/
theorem estimateGenotype_gt_invariants (tr : TandemRepeat) (minD : ℚ)
    (maxD : Option ℚ) (pmap : ℕ → Option (List (List ℚ))) (tr' : TandemRepeat)
    (hpm : ∀ k m, pmap k = some m → k ≤ 50 ∧
      m = (partitions k).map (fun (r : List ℕ) => r.map (fun (a : ℕ) => (a : ℚ))))
    (hne : tr.alleleLengths ≠ some [])
    (hok : estimateGenotype tr minD maxD pmap = (tr', true)) :
    ∃ g, tr'.genotype = some g ∧
      g.Pairwise (fun a b => a.1 ≤ b.1) ∧
      (∀ p ∈ g, 0 < p.2) ∧
      (g.map (fun p => p.2)).sum = (tr.copyNumber : ℚ) := by
  obtain ⟨hist, possibleGts, minIdx, hcn, hh, hpmq, hml, hgt⟩ :=
    estimateGenotype_ok_inv tr minD maxD pmap tr' hok
  obtain ⟨h50, hPeq⟩ := hpm tr.copyNumber possibleGts hpmq
  have hhist_ne : hist ≠ [] := by
    intro h0
    apply hne
    rw [hh, h0]
  have hsorted_ne : sortByFreq hist ≠ [] := by
    intro h0
    have hlen := (List.perm_insertionSort freqRel hist).length_eq
    unfold sortByFreq at h0
    rw [h0] at hlen
    simp only [List.length_nil] at hlen
    exact hhist_ne (List.eq_nil_of_length_eq_zero hlen.symm)
  obtain ⟨s0, st, hs⟩ : ∃ s0 st, sortByFreq hist = s0 :: st := by
    cases hsv : sortByFreq hist with
    | nil => exact absurd hsv hsorted_ne
    | cons a t => exact ⟨a, t, rfl⟩
  have hobs0 : (sortByFreq hist).map (·.2) = s0.2 :: st.map (·.2) := by
    rw [hs]
    rfl
  have hml' : mostLikelyGtIdx
      ((partitions tr.copyNumber).map
        (fun (r : List ℕ) => r.map (fun (a : ℕ) => (a : ℚ))))
      ((⌊(hist.map (fun p => p.2)).sum⌋).toNat) tr.copyNumber
      (obsDistrOf tr.copyNumber (s0.2 :: st.map (·.2))) = .ok minIdx := by
    rw [← hPeq, ← hobs0]
    exact hml
  obtain ⟨hidx', htake⟩ := ok_take_sum tr.copyNumber (by omega) h50
    ((⌊(hist.map (fun p => p.2)).sum⌋).toNat) s0.2 (st.map (·.2)) minIdx (by exact hml')
  have hallen : ((sortByFreq hist).map (·.1)).length = (st.map (·.2)).length + 1 := by
    rw [hs]
    simp
  have hgetD : possibleGts.getD minIdx [] =
      ((partitions tr.copyNumber).getD minIdx []).map (fun (a : ℕ) => (a : ℚ)) := by
    rw [hPeq]
    exact getD_map_rows _ minIdx hidx'
  have hsum0 : (((((sortByFreq hist).map (·.1)).zip (possibleGts.getD minIdx [])).filter
      (fun p => 0 < p.2)).map (fun p => p.2)).sum = (tr.copyNumber : ℚ) := by
    rw [hgetD, zip_filter_sum ((sortByFreq hist).map (·.1))
      ((partitions tr.copyNumber).getD minIdx []), hallen, htake]
  refine ⟨_, hgt, ?_, ?_, ?_⟩
  · have hs1 := List.sorted_insertionSort lenRel
      ((((sortByFreq hist).map (·.1)).zip (possibleGts.getD minIdx [])).filter
        (fun p => 0 < p.2))
    exact List.Pairwise.imp (fun h => h) hs1
  · intro p hp
    have hp' : p ∈ (((sortByFreq hist).map (·.1)).zip
        (possibleGts.getD minIdx [])).filter (fun p => 0 < p.2) :=
      (List.perm_insertionSort lenRel _).subset hp
    exact of_decide_eq_true (List.mem_filter.mp hp').2
  · refine Eq.trans ?_ hsum0
    exact ((List.perm_insertionSort lenRel _).map (fun p => p.2)).sum_eq


/-- Witness for C3 at a concrete locus: copy number 1, histogram `{10 ↦ 1}`,
`min_norm_depth = 0`; the call succeeds and stores the genotype `[(10, 1)]`. -/
theorem estimateGenotype_gt_invariants_witness :
    ∃ g, (⟨⟨"chr1", 10, 30, 2, "GT"⟩, 1, some [((10 : ℤ), (1 : ℚ))],
        some [((10 : ℤ), (1 : ℚ))], .Pass⟩ : TandemRepeat).genotype = some g ∧
      g.Pairwise (fun a b => a.1 ≤ b.1) ∧
      (∀ p ∈ g, 0 < p.2) ∧
      (g.map (fun p => p.2)).sum =
        ((⟨⟨"chr1", 10, 30, 2, "GT"⟩, 1, some [((10 : ℤ), (1 : ℚ))], none,
          .Pass⟩ : TandemRepeat).copyNumber : ℚ) := by
  have hgt1 : mostLikelyGtIdx [[(1 : ℚ)]] 1 1 [(1 : ℚ)] = .ok 0 := by
    rw [mostLikelyGtIdx_eq]
    have hes : errSums [[(1 : ℚ)]] 1 1 [(1 : ℚ)] = [0] := by
      unfold errSums
      norm_num
    rw [hes]
    rw [show ([(0 : ℚ)].min?) = some 0 from rfl]
    dsimp only
    rw [show ([(0 : ℚ)].enum) = [(0, (0 : ℚ))] from rfl]
    rw [List.filter_cons_of_pos (by
      apply decide_eq_true
      show |(0 : ℚ) - 0| < f32Epsilon
      norm_num [f32Epsilon])]
    rfl
  have hn1 : (⌊(List.map (fun p => p.2) [((10 : ℤ), (1 : ℚ))]).sum⌋).toNat = 1 := by
    norm_num
  have ho1 : obsDistrOf 1 ((sortByFreq [((10 : ℤ), (1 : ℚ))]).map (·.2)) = [(1 : ℚ)] := by
    rw [show sortByFreq [((10 : ℤ), (1 : ℚ))] = [((10 : ℤ), (1 : ℚ))] from rfl]
    rfl
  have hgtbig : mostLikelyGtIdx [[(1 : ℚ)]]
      ((⌊(List.map (fun p => p.2) [((10 : ℤ), (1 : ℚ))]).sum⌋).toNat) 1
      (obsDistrOf 1 ((sortByFreq [((10 : ℤ), (1 : ℚ))]).map (·.2))) = .ok 0 := by
    rw [hn1, ho1]
    exact hgt1
  have hok : estimateGenotype
      ⟨⟨"chr1", 10, 30, 2, "GT"⟩, 1, some [((10 : ℤ), (1 : ℚ))], none, .Pass⟩ 0 none
      (fun k => if k = 1 then some [[(1 : ℚ)]] else none) =
      (⟨⟨"chr1", 10, 30, 2, "GT"⟩, 1, some [((10 : ℤ), (1 : ℚ))],
        some [((10 : ℤ), (1 : ℚ))], .Pass⟩, true) := by
    rw [estimateGenotype, if_neg (by decide)]
    dsimp only
    rw [if_neg (not_lt.mpr (by positivity))]
    rw [if_neg (by simp [aboveMax])]
    rw [if_pos (rfl : (1 : ℕ) = 1)]
    dsimp only
    rw [hgtbig]
    decide
  refine estimateGenotype_gt_invariants
    ⟨⟨"chr1", 10, 30, 2, "GT"⟩, 1, some [((10 : ℤ), (1 : ℚ))], none, .Pass⟩ 0 none
    (fun k => if k = 1 then some [[(1 : ℚ)]] else none) _ ?_ (by simp) hok
  intro k mm hk
  by_cases h1 : k = 1
  · subst h1
    constructor
    · norm_num
    · dsimp only at hk
      rw [if_pos rfl] at hk
      have hmm : mm = [[(1 : ℚ)]] := (Option.some.inj hk).symm
      rw [hmm, show partitions 1 = [[1]] from rfl]
      simp
  · dsimp only at hk
    rw [if_neg h1] at hk
    exact absurd hk (by simp)

end ConSTRain
